import Mathlib

/-!
Verification development for the markify document-structure analyzer.

The source is a TypeScript module with two pipelines:
  * `MarkdownTransformer` — `analyzeTextStructure` (a per-line fold that
    classifies lines into `Block` records), `analyzeHeading`,
    `detectListType`, `isTitleCase`, `blocksToMarkdown`, `transform`;
  * `processDocument` / `validateMarkdown` — a configuration-driven
    line rewriter and a boolean sanity check.

We embed the code shallowly: text is a `List Char`, a line list is
obtained by splitting on `'\n'` exactly as JavaScript `split('\n')`
does, and every regular expression of the source is modelled by an
explicit character-level function with the same matching semantics
(greedy runs; the relevant patterns need no backtracking, as argued in
comments at each definition).  JavaScript `\s` covers ASCII whitespace
plus some unicode spaces; we model the ASCII part, which is exhaustive
for every property below.
-/

namespace Markify

/-- ASCII model of the JavaScript `\s` class / `trim` whitespace set. -/
def jsWs (c : Char) : Bool :=
  c == ' ' || c == '\t' || c == '\n' || c == '\r' ||
  c == Char.ofNat 11 || c == Char.ofNat 12

def upperA (c : Char) : Bool := 65 ≤ c.toNat && c.toNat ≤ 90

def lowerA (c : Char) : Bool := 97 ≤ c.toNat && c.toNat ≤ 122

def digitA (c : Char) : Bool := 48 ≤ c.toNat && c.toNat ≤ 57

/-- JavaScript `\w`: letters, digits, underscore. -/
def wordA (c : Char) : Bool := upperA c || lowerA c || digitA c || c == '_'

/-- Drop trailing whitespace characters. -/
def dropTrailWs (l : List Char) : List Char :=
  (l.reverse.dropWhile jsWs).reverse

/-- JavaScript `String.prototype.trim` (ASCII part). -/
def trimChars (l : List Char) : List Char :=
  dropTrailWs (l.dropWhile jsWs)

/-- JavaScript `text.split('\n')`: no collapsing, `"" ↦ [""]`. -/
def splitNl : List Char → List (List Char)
  | [] => [[]]
  | c :: cs =>
    match splitNl cs with
    | [] => [[]]
    | r :: rs => if c = '\n' then [] :: r :: rs else (c :: r) :: rs

/-- Split on a single space, JavaScript `line.split(' ')`. -/
def splitSp : List Char → List (List Char)
  | [] => [[]]
  | c :: cs =>
    match splitSp cs with
    | [] => [[]]
    | r :: rs => if c = ' ' then [] :: r :: rs else (c :: r) :: rs

/-! ## The Block data model (source type `Block`) -/

inductive BlockType where
  | heading | paragraph | list | code | quote
deriving DecidableEq, Repr

inductive ListKind where
  | bullet | numbered
deriving DecidableEq, Repr

/-- Source `Block`: `type`, `content`, and the optional `metadata`
fields `level`, `listType`, `listIndex` (absent = `none`). -/
structure Block where
  type : BlockType
  content : List Char
  level : Option Nat := none
  listType : Option ListKind := none
  listIndex : Option Nat := none
deriving DecidableEq, Repr

/-! ## Line classifier pieces -/

/-- `/^(#{1,6})\s+(.*)/` applied to a line without `'\n'`: the leading
`#`-run (greedy; if it exceeds 6 the regex fails, since for any shorter
choice the following character is `'#'`, not whitespace), then at least
one whitespace character, then the greedy remainder.  Returns
`(level, match2)` where `match2` is the raw second capture. -/
def atxMatch (l : List Char) : Option (Nat × List Char) :=
  let k := (l.takeWhile (· = '#')).length
  let rest := l.drop k
  match rest with
  | c :: _ =>
    if 1 ≤ k ∧ k ≤ 6 ∧ jsWs c then some (k, rest.dropWhile jsWs) else none
  | [] => none

/-- `/^===+$/` on the raw lookahead line. -/
def eqRun (l : List Char) : Bool := decide (3 ≤ l.length) && l.all (· == '=')

/-- `/^---+$/` on the raw lookahead line. -/
def dashRun (l : List Char) : Bool := decide (3 ≤ l.length) && l.all (· == '-')

def lowerChars (l : List Char) : List Char := l.map Char.toLower

/-- `/^r\/[a-zA-Z0-9_]+$/` -/
def metaP1 (l : List Char) : Bool :=
  match l with
  | 'r' :: '/' :: rest => (!rest.isEmpty) && rest.all wordA
  | _ => false

/-- `/^\/r\/[a-zA-Z0-9_]+$/` -/
def metaP2 (l : List Char) : Bool :=
  match l with
  | '/' :: 'r' :: '/' :: rest => (!rest.isEmpty) && rest.all wordA
  | _ => false

/-- `/^(About|Description|Overview|Rules|Information)$/i` -/
def metaP3 (l : List Char) : Bool :=
  [ "about", "description", "overview", "rules", "information" ].any
    (fun w => lowerChars l == w.data)

/-- `/^(Created|Members|Online|Public|Private|Restricted)$/i` -/
def metaP4 (l : List Char) : Bool :=
  [ "created", "members", "online", "public", "private", "restricted" ].any
    (fun w => lowerChars l == w.data)

/-- The optional `(\s+by\s+\w+)?$` tail of the fifth pattern, applied to
the lowered remainder after the keyword: either empty, or at least one
whitespace, the literal `by`, at least one whitespace, then a nonempty
greedy `\w+` run reaching the end. -/
def byTail (t : List Char) : Bool :=
  t.isEmpty ||
  (let t1 := t.dropWhile jsWs
   decide (t1.length < t.length) &&
   (match t1 with
    | 'b' :: 'y' :: t2 =>
      let t3 := t2.dropWhile jsWs
      decide (t3.length < t2.length) && (!t3.isEmpty) && t3.all wordA
    | _ => false))

/-- `/^(Rank|Status|Category|Type)(\s+by\s+\w+)?$/i` -/
def metaP5 (l : List Char) : Bool :=
  let ll := lowerChars l
  [ "rank", "status", "category", "type" ].any
    (fun w => w.data.isPrefixOf ll && byTail (ll.drop w.length))

/-- `\s*(flair|info|details)?$`: greedy `\s*`, then an optional keyword
(the alternatives start with letters, so shrinking `\s*` never helps). -/
def roleTail (t : List Char) : Bool :=
  let t1 := t.dropWhile jsWs
  t1.isEmpty || ["flair", "info", "details"].any (fun w => t1 == w.data)

/-- `/^(User|Moderator|Admin|Author)s?\s*(flair|info|details)?$/i` -/
def metaP6 (l : List Char) : Bool :=
  let ll := lowerChars l
  [ "user", "moderator", "admin", "author" ].any
    (fun w =>
      w.data.isPrefixOf ll &&
      (let t := ll.drop w.length
       match t with
       | 's' :: t' => roleTail t' || roleTail t
       | _ => roleTail t))

/-- `/^u\/[a-zA-Z0-9_-]+$/` -/
def metaP7 (l : List Char) : Bool :=
  match l with
  | 'u' :: '/' :: rest => (!rest.isEmpty) && rest.all (fun c => wordA c || c == '-')
  | _ => false

/-- The `metadataPatterns` map in insertion order with its levels;
first match wins. -/
def metadataLevel (l : List Char) : Option Nat :=
  if metaP1 l then some 1
  else if metaP2 l then some 1
  else if metaP3 l then some 2
  else if metaP4 l then some 3
  else if metaP5 l then some 3
  else if metaP6 l then some 4
  else if metaP7 l then some 4
  else none

/-- `/^[A-Z][a-z]/.test(word) || /^[A-Z]+$/.test(word)` -/
def titleWord (w : List Char) : Bool :=
  (match w with
   | a :: b :: _ => upperA a && lowerA b
   | _ => false) ||
  ((!w.isEmpty) && w.all upperA)

/-- `isTitleCase`: split on single spaces, count matching words, and
require `count / words.length > 0.6` (exact rational comparison; the
source uses floating point, which agrees on all realistic sizes). -/
def isTitleCase (l : List Char) : Bool :=
  let words := splitSp l
  let count := (words.filter titleWord).length
  decide (5 * count > 3 * words.length)

/-- Result record of `analyzeHeading`. -/
structure HeadRes where
  isHeading : Bool
  headingText : List Char
  remaining : List Char
  level : Option Nat := none
deriving DecidableEq, Repr

/-- `analyzeHeading(line, lines, index)`: the decision cascade.  The
source consults only `lines[index + 1]` (and only when
`index < lines.length - 1`), which we pass as the optional `nxt`. -/
def analyzeHeading (line : List Char) (nxt : Option (List Char)) : HeadRes :=
  match atxMatch line with
  | some (k, m2) => ⟨true, trimChars m2, [], some k⟩
  | none =>
    match nxt with
    | some nl =>
      if eqRun nl then ⟨true, trimChars line, [], some 1⟩
      else if dashRun nl then ⟨true, trimChars line, [], some 2⟩
      else
        match metadataLevel line with
        | some lv => ⟨true, trimChars line, [], some lv⟩
        | none =>
          if isTitleCase line ∧ line.length < 60 then
            ⟨true, trimChars line, [], some 2⟩
          else ⟨false, [], line, none⟩
    | none =>
      match metadataLevel line with
      | some lv => ⟨true, trimChars line, [], some lv⟩
      | none =>
        if isTitleCase line ∧ line.length < 60 then
          ⟨true, trimChars line, [], some 2⟩
        else ⟨false, [], line, none⟩

/-! ## List detection (`listPatterns` and `detectListType`) -/

/-- Match result of `detectListType`: the list kind, the line with the
matched prefix removed (the effect of `line.replace(pattern, '')` for
these `^`-anchored patterns), and the first capture group (`match[1]`,
present only for the bullet pattern — the numbered, lettered and
parenthesized patterns have no capture group, so `match[1]` is
`undefined`, modelled by `none`). -/
structure ListMatch where
  kind : ListKind
  stripped : List Char
  index : Option (List Char)
deriving DecidableEq, Repr

/-- `/^\s*([-*+])\s+/`: whitespace, one bullet marker (captured), then
at least one whitespace (greedy).  Returns the rest after the match. -/
def bulletMatch (l : List Char) : Option (List Char × List Char) :=
  match l.dropWhile jsWs with
  | m :: rest =>
    if (m = '-' ∨ m = '*' ∨ m = '+') ∧ (rest.headD 'x' |> jsWs) then
      some ([m], rest.dropWhile jsWs)
    else none
  | [] => none

/-- `/^\s*\d+[\.)]\s+/` (no capture group). -/
def numberedMatch (l : List Char) : Option (List Char) :=
  let a := l.dropWhile jsWs
  let ds := a.takeWhile digitA
  let b := a.drop ds.length
  match b with
  | p :: rest =>
    if (!ds.isEmpty) && (p == '.' || p == ')') && (rest.headD 'x' |> jsWs) then
      some (rest.dropWhile jsWs)
    else none
  | [] => none

/-- `/^\s*[a-zA-Z][\.)]\s+/` (no capture group). -/
def letterMatch (l : List Char) : Option (List Char) :=
  match l.dropWhile jsWs with
  | c :: p :: rest =>
    if (upperA c || lowerA c) && (p == '.' || p == ')') && (rest.headD 'x' |> jsWs) then
      some (rest.dropWhile jsWs)
    else none
  | _ => none

/-- `/^\s*\(\d+\)\s+/` (no capture group). -/
def parenMatch (l : List Char) : Option (List Char) :=
  match l.dropWhile jsWs with
  | '(' :: b =>
    let ds := b.takeWhile digitA
    (match b.drop ds.length with
     | ')' :: rest =>
       if (!ds.isEmpty) && (rest.headD 'x' |> jsWs) then
         some (rest.dropWhile jsWs)
       else none
     | _ => none)
  | _ => none

/-- `/^\s*\d+[\.)]/.test(line)`: the digit-only kind check. -/
def digitMarkerTest (l : List Char) : Bool :=
  let a := l.dropWhile jsWs
  let ds := a.takeWhile digitA
  match a.drop ds.length with
  | p :: _ => (!ds.isEmpty) && (p == '.' || p == ')')
  | [] => false

/-- `detectListType(line)`: try the four patterns in order; the kind is
`numbered` iff the separate digit-marker test succeeds. -/
def detectListType (l : List Char) : Option ListMatch :=
  let kind := if digitMarkerTest l then ListKind.numbered else ListKind.bullet
  match bulletMatch l with
  | some (cap, rest) => some ⟨kind, rest, some cap⟩
  | none =>
    match numberedMatch l with
    | some rest => some ⟨kind, rest, none⟩
    | none =>
      match letterMatch l with
      | some rest => some ⟨kind, rest, none⟩
      | none =>
        match parenMatch l with
        | some rest => some ⟨kind, rest, none⟩
        | none => none

/-- JavaScript `parseInt(s, 10)` restricted to what the assembler can
pass it: leading whitespace, then a nonempty digit run (further
characters are ignored); `none` models `NaN`. -/
def jsParseInt (s : List Char) : Option Nat :=
  let t := s.dropWhile jsWs
  let ds := t.takeWhile digitA
  if ds.isEmpty then none
  else some (ds.foldl (fun n c => 10 * n + (c.toNat - 48)) 0)

/-! ## The block assembler (`analyzeTextStructure`) -/

/-- The fold state: `currentBlock`, `inCodeBlock`, `codeBlockContent`. -/
structure AsmSt where
  cur : Option Block
  inCode : Bool
  accum : List Char
deriving DecidableEq, Repr

def initSt : AsmSt := ⟨none, false, []⟩

/-- `/^>\s?/` replacement on the trimmed line: drop the `>` and at most
one following whitespace character. -/
def quoteStrip (l : List Char) : List Char :=
  match l with
  | '>' :: c :: rest => if jsWs c then rest else c :: rest
  | '>' :: [] => []
  | _ => l

/-- One iteration of the `lines.forEach` body: takes the state, the raw
line and the raw lookahead line (`lines[index+1]`, when it exists), and
returns the new state together with the blocks pushed. -/
def stepLine (st : AsmSt) (raw : List Char) (nxt : Option (List Char)) :
    AsmSt × List Block :=
  let t := trimChars raw
  if ['`', '`', '`'].isPrefixOf t then
    if st.inCode then (⟨st.cur, false, []⟩, [{ type := .code, content := st.accum }])
    else (⟨st.cur, true, st.accum⟩, [])
  else if st.inCode then
    (⟨st.cur, true, st.accum ++ raw ++ ['\n']⟩, [])
  else if t.isEmpty then
    match st.cur with
    | some b => if b.type ≠ .list then (⟨none, false, []⟩, [b]) else (st, [])
    | none => (st, [])
  else if t.headD 'x' = '>' then
    let qc := quoteStrip t
    match st.cur with
    | some b =>
      if b.type = .quote then
        (⟨some { b with content := b.content ++ '\n' :: qc }, false, []⟩, [])
      else (⟨some { type := .quote, content := qc }, false, []⟩, [b])
    | none => (⟨some { type := .quote, content := qc }, false, []⟩, [])
  else
    match detectListType raw with
    | some lm =>
      let flushed : List Block × Option Block :=
        match st.cur with
        | some b => if b.type ≠ .list then ([b], none) else ([], some b)
        | none => ([], none)
      let idx : Option Nat :=
        if lm.kind = .numbered then jsParseInt (lm.index.getD ['1']) else none
      (⟨flushed.2, false, []⟩,
        flushed.1 ++
          [{ type := .list, content := trimChars lm.stripped,
             listType := some lm.kind, listIndex := idx }])
    | none =>
      let ha := analyzeHeading t nxt
      if ha.isHeading then
        let newCur : Option Block :=
          if ha.remaining.isEmpty then none
          else some { type := .paragraph, content := ha.remaining }
        (⟨newCur, false, []⟩,
          (st.cur.map ([·])).getD [] ++ [{ type := .heading, content := ha.headingText, level := ha.level }])
      else
        match st.cur with
        | none => (⟨some { type := .paragraph, content := t }, false, []⟩, [])
        | some b =>
          if b.type = .paragraph then
            (⟨some { b with content := b.content ++ ' ' :: t }, false, []⟩, [])
          else (⟨some { type := .paragraph, content := t }, false, []⟩, [b])

/-- Run the fold over the line list; at end of input only
`currentBlock` is flushed (an open code accumulator is dropped — this
is what the source does). -/
def runLines : AsmSt → List (List Char) → List Block
  | st, [] => match st.cur with | some b => [b] | none => []
  | st, l :: rest =>
    let p := stepLine st l rest.head?
    p.2 ++ runLines p.1 rest

/-- `analyzeTextStructure(text)`. -/
def analyzeTextStructure (text : List Char) : List Block :=
  runLines initSt (splitNl text)

/-! ## The renderer (`blocksToMarkdown`) -/

/-- Decimal digits of a natural number (for `${listIndex}`). -/
def natChars (n : Nat) : List Char := (Nat.repr n).data

/-- `'#'.repeat(level)`. -/
def hashes (n : Nat) : List Char := List.replicate n '#'

/-- The `level || 1` fallback (JavaScript falsy on `0`/`undefined`). -/
def levelOrOne : Option Nat → Nat
  | some (n + 1) => n + 1
  | _ => 1

/-- The renderer fold: `markdown`, `listType`, `listStarted` state.  We
return the markdown of the remaining blocks given the list state. -/
def bmGo : Option ListKind → Bool → List Block → List Char
  | _, _, [] => []
  | lt, ls, b :: bs =>
    match b.type with
    | .heading =>
      (hashes (levelOrOne b.level) ++ ' ' :: b.content ++ ['\n', '\n']) ++
        bmGo lt ls bs
    | .paragraph => (b.content ++ ['\n', '\n']) ++ bmGo lt ls bs
    | .list =>
      let lt' : Option ListKind :=
        if ¬ ls ∨ lt ≠ b.listType then some (b.listType.getD .bullet) else lt
      let piece : List Char :=
        (match lt', b.listIndex with
        | some .numbered, some (n + 1) => natChars (n + 1) ++ ['.', ' ']
        | _, _ => ['-', ' ']) ++ b.content ++ ['\n']
      piece ++ bmGo lt' true bs
    | .code =>
      ('`' :: '`' :: '`' :: '\n' :: b.content ++ ['`', '`', '`', '\n', '\n']) ++
        bmGo lt ls bs
    | .quote => ('>' :: ' ' :: b.content ++ ['\n', '\n']) ++ bmGo lt ls bs

/-- `blocksToMarkdown(blocks)`. -/
def blocksToMarkdown (bs : List Block) : List Char :=
  trimChars (bmGo none false bs)

/-- `transform(text)`. -/
def transform (text : List Char) : List Char :=
  blocksToMarkdown (analyzeTextStructure text)

/-! ## `validateMarkdown` -/

/-- One line's test against the multiline `/^#{1,6} [^\n]+/m`: a
`#`-run of length 1–6 (a longer greedy run cannot back off, since every
shorter prefix is followed by `'#'`), a literal space, then at least
one character. -/
def atxLineTest (l : List Char) : Bool :=
  let k := (l.takeWhile (· = '#')).length
  decide (1 ≤ k) && decide (k ≤ 6) &&
    (match l.drop k with
     | ' ' :: c :: _ => c != '\n'
     | _ => false)

/-- Non-overlapping count of triple-backtick occurrences
(`markdown.match(/```/g)`). -/
def countTriples : List Char → Nat
  | c1 :: c2 :: c3 :: rest2 =>
    if c1 = '`' ∧ c2 = '`' ∧ c3 = '`' then countTriples rest2 + 1
    else countTriples (c2 :: c3 :: rest2)
  | _ => 0

/-- `validateMarkdown(markdown)`. -/
def validateMarkdown (md : List Char) : Bool :=
  (splitNl md).any atxLineTest &&
  (md.count '*') % 2 == 0 &&
  (countTriples md) % 2 == 0

/-! ## The configuration-driven rewriter (`processDocument`) -/

/-- `StructureConfig`.  The union types of the TypeScript declaration
exist only at compile time; at runtime the fields hold arbitrary
strings (and an arbitrary number for the depth), which is exactly what
the claim about invalid configurations is about, so we model them as
raw character lists. -/
structure StructureConfig where
  headingDepth : Nat
  listStyle : List Char
  paragraphSpacing : List Char
  emphasisStyle : List Char
  codeBlockStyle : List Char
deriving DecidableEq, Repr

/-- `[^.!?]*[:.\n]` scan after the initial capital: the match exists
iff the first occurrence of any of `. ! ? : \n` exists and is one of
`. : \n` (the run may pass over `:` and `\n`, but any terminator
position must precede every `.`, `!`, `?`). -/
def tailTerm : List Char → Bool
  | [] => false
  | c :: cs =>
    if c = '.' ∨ c = ':' ∨ c = '\n' then true
    else if c = '!' ∨ c = '?' then false
    else tailTerm cs

/-- `/^[A-Z][^.!?]*[:.\n]/.test(line)`. -/
def headerLineTest (l : List Char) : Bool :=
  match l with
  | c :: cs => upperA c && tailTerm cs
  | [] => false

/-- The zero-width lookahead `(?=\n[A-Z][^.!?]*[:.\n])` tested at a
position (given the remaining characters). -/
def lookMatch (l : List Char) : Bool :=
  match l with
  | '\n' :: c :: cs => upperA c && tailTerm cs
  | _ => false

/-- `text.split(/(?=\n[A-Z][^.!?]*[:.\n])/g)`: zero-width split; per
the ECMAScript split algorithm an empty match at the previous split
position (in particular at index 0) produces no segment, so after each
split at least one character is consumed before the next test. -/
def sectionGo (accRev : List Char) : List Char → List (List Char)
  | [] => [accRev.reverse]
  | c :: cs =>
    if ¬ accRev.isEmpty ∧ lookMatch (c :: cs) then
      accRev.reverse :: sectionGo [c] cs
    else sectionGo (c :: accRev) cs

def sectionSplit (text : List Char) : List (List Char) := sectionGo [] text

/-- `/^\d+\./.test(line)` (greedy digits, then a literal dot). -/
def digitDotTest (l : List Char) : Bool :=
  let ds := l.takeWhile digitA
  (!ds.isEmpty) && ((l.drop ds.length).headD 'x' == '.')

/-- `line.replace(/^\d+\./, '')`. -/
def stripDigitDot (l : List Char) : List Char :=
  l.drop ((l.takeWhile digitA).length + 1)

/-- `/^[-*•]/.test(line)`. -/
def bulletCharTest (l : List Char) : Bool :=
  match l with
  | c :: _ => c == '-' || c == '*' || c == '•'
  | [] => false

/-- `markdown.split('\n').filter(l => l.match(/^\d+\./)).length`. -/
def countNumLines (md : List Char) : Nat :=
  ((splitNl md).filter digitDotTest).length

/-- Fuel-indexed body of `repSingle`; the fuel (initially the list
length) strictly dominates the list length at every recursive call, so
the zero-fuel branch is unreachable for nonempty lists.  Structural
recursion on the fuel keeps the function kernel-reducible. -/
def repSingleF (d r : Char) : Nat → List Char → List Char
  | 0, l => l
  | _ + 1, [] => []
  | fuel + 1, c :: rest =>
    if c = d then
      let run := rest.takeWhile (· ≠ d)
      if run.isEmpty ∨ (rest.drop run.length).isEmpty then
        c :: repSingleF d r fuel rest
      else r :: run ++ r :: repSingleF d r fuel (rest.drop (run.length + 1))
    else c :: repSingleF d r fuel rest

/-- `/_([^_]+)_/g`-style global replacement: delimiter `d`, rewritten
to `r` (`'*$1*'`).  The inner `[^d]+` run is greedy and maximal, so the
match at a position succeeds iff the run is nonempty and a further
character (necessarily `d`) follows; on failure the engine advances by
one character, on success it continues after the match. -/
def repSingle (d r : Char) (l : List Char) : List Char :=
  repSingleF d r l.length l

/-- Fuel-indexed body of `repDouble`; same fuel discipline as
`repSingleF`. -/
def repDoubleF (d r : Char) : Nat → List Char → List Char
  | 0, l => l
  | _ + 1, [] => []
  | _ + 1, [c] => [c]
  | fuel + 1, c1 :: c2 :: rest =>
    if c1 = d ∧ c2 = d then
      let run := rest.takeWhile (· ≠ d)
      match rest.drop run.length with
      | a :: b :: t =>
        if (!run.isEmpty) ∧ a = d ∧ b = d then
          r :: r :: run ++ r :: r :: repDoubleF d r fuel t
        else c1 :: repDoubleF d r fuel (c2 :: rest)
      | _ => c1 :: repDoubleF d r fuel (c2 :: rest)
    else c1 :: repDoubleF d r fuel (c2 :: rest)

/-- `/__([^_]+)__/g`-style global replacement (`'**$1**'`): two
delimiters, a nonempty greedy run, two delimiters.  Shrinking the
greedy run never helps (the next character would not be `d`), so the
match condition is exact. -/
def repDouble (d r : Char) (l : List Char) : List Char :=
  repDoubleF d r l.length l

/-- `markdown.endsWith('```\n')`. -/
def endsWithFence (md : List Char) : Bool :=
  ['`', '`', '`', '\n'].isSuffixOf md

/-- `/^( {4}|\t)/.test(line)` (alternation tried left to right). -/
def indentTest (l : List Char) : Bool :=
  l.take 4 == [' ', ' ', ' ', ' '] || l.headD 'x' == '\t'

/-- `line.replace(/^( {4}|\t)/, '')`. -/
def stripIndent (l : List Char) : List Char :=
  if l.take 4 = [' ', ' ', ' ', ' '] then l.drop 4
  else if l.headD 'x' = '\t' then l.drop 1
  else l

/-- One iteration of the inner `lines.forEach` body of
`processDocument`: state is `(markdown, currentParagraph)`. -/
def pdLineStep (cfg : StructureConfig) (md para raw : List Char) :
    List Char × List Char :=
  let l0 := trimChars raw
  let l1 :=
    if digitDotTest l0 then
      if cfg.listStyle = "bullet".data then
        '*' :: ' ' :: trimChars (stripDigitDot l0)
      else l0
    else if bulletCharTest l0 then
      if cfg.listStyle = "numbered".data then
        natChars (countNumLines md + 1) ++ '.' :: ' ' :: trimChars (l0.drop 1)
      else l0
    else l0
  let l2 :=
    if cfg.emphasisStyle = "asterisk".data then
      repDouble '_' '*' (repSingle '_' '*' l1)
    else
      repDouble '*' '_' (repSingle '*' '_' l1)
  let step3 : List Char × List Char :=
    if indentTest l2 then
      if cfg.codeBlockStyle = "fenced".data then
        (if ¬ endsWithFence md then md ++ ['`', '`', '`', '\n'] else md,
          stripIndent l2)
      else (md, l2)
    else if endsWithFence md ∧ cfg.codeBlockStyle = "fenced".data then
      (md ++ ['`', '`', '`', '\n', '\n'], l2)
    else (md, l2)
  let md1 := step3.1
  let l3 := step3.2
  if l3.isEmpty then
    if ¬ para.isEmpty then
      (md1 ++ para ++ '\n' ::
        (if cfg.paragraphSpacing = "double".data then ['\n'] else []), [])
    else (md1, para)
  else (md1, para ++ (if para.isEmpty then [] else [' ']) ++ l3)

def pdLinesGo (cfg : StructureConfig) :
    List Char → List Char → List (List Char) → List Char × List Char
  | md, para, [] => (md, para)
  | md, para, l :: rest =>
    let p := pdLineStep cfg md para l
    pdLinesGo cfg p.1 p.2 rest

/-- The per-section body of `processDocument`. -/
def pdSection (cfg : StructureConfig) (md sec : List Char) : List Char :=
  let lines := splitNl (trimChars sec)
  let hdr : List Char × List (List Char) :=
    match lines with
    | [] => (md, [])
    | first :: rest =>
      if headerLineTest first then
        (md ++ hashes (min cfg.headingDepth 3) ++ ' ' :: trimChars first ++
          ['\n', '\n'], rest)
      else (md, first :: rest)
  let p := pdLinesGo cfg hdr.1 [] hdr.2
  if ¬ p.2.isEmpty then p.1 ++ p.2 ++ ['\n', '\n'] else p.1

/-- `processDocument(text, config)`. -/
def processDocument (text : List Char) (cfg : StructureConfig) : List Char :=
  trimChars ((sectionSplit text).foldl (pdSection cfg) [])

end Markify

namespace Markify

/-! ## Claim-level definitions -/

/-- Does the text contain at least one ATX heading line (a line whose
trimmed form matches the analyzer's ATX pattern)? -/
def hasAtxLine (text : List Char) : Bool :=
  (splitNl text).any (fun l => (atxMatch (trimChars l)).isSome)

/-- A well-formed configuration with `emphasis_style = asterisk`. -/
def asteriskConfig : StructureConfig :=
  ⟨2, "bullet".data, "single".data, "asterisk".data, "fenced".data⟩

/-- A configuration with values outside the documented enumerations:
`heading_depth = 9` and an unrecognized `emphasis_style`. -/
def badConfig : StructureConfig :=
  ⟨9, "bullet".data, "single".data, "sparkles".data, "fenced".data⟩

/-! ## Claim theorems (first batch) -/

/-- C1: the claim states that an unterminated code fence is flushed as
a trailing code block.  The code drops the accumulated content instead:
for `"```\ncode"` the analyzer returns no block at all, and for
`"para\n```\ncode"` only the paragraph survives while the code content
vanishes.  (The `if (currentBlock)` end-of-input flush never sees
`codeBlockContent`.) -/
theorem C1_unterminated_fence_dropped :
    analyzeTextStructure "```\ncode".data = [] ∧
    analyzeTextStructure "para\n```\ncode".data =
      [{ type := .paragraph, content := "para".data }] := by
  decide

/-- C2: the claim states `list_index` 1 and 2 for `"1. first\n2. second"`.
The numbered list pattern `/^\s*\d+[\.)]\s+/` has no capture group, so
`match[1]` is always `undefined` and `parseInt(match[1] || '1')` always
yields 1: both blocks carry `list_index = 1`. -/
theorem C2_list_index_always_one :
    analyzeTextStructure "1. first\n2. second".data =
      [{ type := .list, content := "first".data,
         listType := some .numbered, listIndex := some 1 },
       { type := .list, content := "second".data,
         listType := some .numbered, listIndex := some 1 }] := by
  decide

/-- C3: the claim states that `"Title\n==="` yields a single level-1
heading and consumes both lines.  The `forEach` loop cannot skip the
underline line, which matches no classifier rule and becomes a spurious
paragraph block `"==="`. -/
theorem C3_setext_underline_not_consumed :
    analyzeTextStructure "Title\n===".data =
      [{ type := .heading, content := "Title".data, level := some 1 },
       { type := .paragraph, content := "===".data }] := by
  decide

/-- C6: the claim states `__x__ → **x**` under asterisk style.  The
single-underscore substitution runs first and rewrites `"__word__"` to
`"_*word*_"`, so the double-underscore rule never sees it; the
single-delimiter half of the claim (`_x_ → *x*`) does hold. -/
theorem C6_double_underscore_mistranslated :
    processDocument "__word__".data asteriskConfig = "_*word*_".data ∧
    processDocument "_word_".data asteriskConfig = "*word*".data := by
  decide

/-- C5 counterexample: a configuration with `heading_depth = 9` and
`emphasis_style = "sparkles"` does not fail with any error — the
pipeline proceeds silently, clamping the depth to 3 and treating the
unknown emphasis style exactly like `underscore`. -/
theorem C5_no_validation_counterexample :
    processDocument "*a*".data badConfig = "_a_".data ∧
    processDocument "Hi:\nx".data badConfig = "### Hi:\n\nx".data := by
  decide

/-- C9 counterexample: `"# A\n* x\nb*c"` has an ATX heading line, an
even asterisk count (2) and an even fence count (0), yet the rendered
output `"# A\n\n- x\nb*c"` has a single asterisk (the `*` bullet marker
is rewritten to `-`), so `validate` is false. -/
theorem C9_balanced_counterexample :
    hasAtxLine "# A\n* x\nb*c".data = true ∧
    ("# A\n* x\nb*c".data.count '*') % 2 = 0 ∧
    countTriples "# A\n* x\nb*c".data % 2 = 0 ∧
    validateMarkdown (transform "# A\n* x\nb*c".data) = false := by
  decide

/-- C4 counterexample: `render∘analyze` is not idempotent on its own
output, already for a text with no code blocks at all: the two quote
lines `"> a\n> b"` merge into one quote block rendered `"> a\nb"`, and
re-analysis breaks that into a quote plus a paragraph rendered
`"> a\n\nb"`. -/
theorem C4_idempotence_counterexample :
    transform (transform "> a\n> b".data) ≠ transform "> a\n> b".data := by
  decide

/-- C7: for every line recognized by one of the four list patterns, the
assigned kind is `numbered` iff the line passes the separate
digit-marker test `/^\s*\d+[\.)]/`; lettered and parenthesized markers
are recognized as list items but tagged `bullet`. -/
theorem C7_numbered_iff_digit_marker :
    (∀ l m, detectListType l = some m →
      (m.kind = .numbered ↔ digitMarkerTest l = true)) ∧
    detectListType "a) item".data =
      some ⟨.bullet, "item".data, none⟩ ∧
    detectListType "(1) item".data =
      some ⟨.bullet, "item".data, none⟩ := by
  refine ⟨?_, by decide, by decide⟩
  intro l m h
  unfold detectListType at h
  by_cases hd : digitMarkerTest l
  · simp only [hd, if_true] at h
    constructor
    · intro _; exact hd
    · intro _
      split at h <;> try (cases h; rfl)
      · split at h <;> try (cases h; rfl)
        split at h <;> try (cases h; rfl)
        split at h
        · cases h; rfl
        · cases h
  · simp only [hd, if_false] at h
    constructor
    · intro hk
      exfalso
      split at h <;> try (cases h; simp_all)
      split at h <;> try (cases h; simp_all)
      split at h <;> try (cases h; simp_all)
      split at h
      · cases h; simp_all
      · cases h
    · intro hk; exact absurd hk (by simp [hd])

/-- C7 witness: the general part instantiated at the numbered line
`"1. x"`. -/
theorem C7_numbered_iff_digit_marker_witness :
    ((⟨.numbered, "x".data, none⟩ : ListMatch).kind = .numbered ↔
      digitMarkerTest "1. x".data = true) :=
  C7_numbered_iff_digit_marker.1 "1. x".data _ (by decide)

end Markify

namespace Markify

/-! ## The assembler state invariant (C10) -/

/-- The open block, whenever present, is a paragraph or a quote. -/
def stateOK (st : AsmSt) : Bool :=
  match st.cur with
  | some b => b.type == .paragraph || b.type == .quote
  | none => true

theorem stepLine_ok (st : AsmSt) (l : List Char) (n : Option (List Char))
    (h : stateOK st = true) : stateOK (stepLine st l n).1 = true := by
  obtain ⟨cur, ic, acc⟩ := st
  unfold stepLine
  dsimp only
  repeat' split
  all_goals simp_all [stateOK]

/-- The state trace of the assembler fold (initial state included). -/
def traceSt : AsmSt → List (List Char) → List AsmSt
  | st, [] => [st]
  | st, l :: rest => st :: traceSt (stepLine st l rest.head?).1 rest

theorem traceSt_ok :
    ∀ (lines : List (List Char)) (st : AsmSt), stateOK st = true →
      ∀ s ∈ traceSt st lines, stateOK s = true := by
  intro lines
  induction lines with
  | nil =>
    intro st h s hs
    simp [traceSt] at hs
    exact hs ▸ h
  | cons l rest ih =>
    intro st h s hs
    simp only [traceSt, List.mem_cons] at hs
    rcases hs with rfl | hs
    · exact h
    · exact ih _ (stepLine_ok st l rest.head? h) s hs

/-- C10: throughout the assembler's fold over the lines of any input,
the open (not yet emitted) block, whenever non-null, is a paragraph or
a quote block; heading, list and code blocks are emitted on the line
that completes them and are never held open. -/
theorem C10_open_block_paragraph_or_quote :
    ∀ (text : List Char) (st : AsmSt),
      st ∈ traceSt initSt (splitNl text) → stateOK st = true := by
  intro text st h
  exact traceSt_ok (splitNl text) initSt rfl st h

/-- C10 witness: the invariant read off a concrete mid-fold state of
the input `"- item\nplain"` (the final state, holding the open
paragraph). -/
theorem C10_open_block_paragraph_or_quote_witness :
    stateOK ⟨some { type := .paragraph, content := "plain".data }, false, []⟩ =
      true :=
  C10_open_block_paragraph_or_quote "- item\nplain".data _ (by decide)

/-! ## The title-case length boundary (C8) -/

theorem splitNl_no_nl (s : List Char) (h : '\n' ∉ s) : splitNl s = [s] := by
  induction s with
  | nil => rfl
  | cons c cs ih =>
    simp only [List.mem_cons, not_or] at h
    simp [splitNl, ih h.2, Ne.symm h.1]

/-- C8: a 59-character line which is title-cased and matches no other
classifier rule (no fence, quote, list, ATX or pattern-table marker) is
classified as a single level-2 heading; a 61-character line with the
same properties fails the `length < 60` bound and becomes an ordinary
paragraph. -/
theorem C8_title_case_length_boundary :
    ∀ s : List Char, '\n' ∉ s → trimChars s = s → isTitleCase s = true →
      detectListType s = none → atxMatch s = none → metadataLevel s = none →
      ¬ ['`', '`', '`'].isPrefixOf s → s.headD 'x' ≠ '>' →
      ((s.length = 59 →
        analyzeTextStructure s =
          [{ type := .heading, content := s, level := some 2 }]) ∧
       (s.length = 61 →
        analyzeTextStructure s = [{ type := .paragraph, content := s }])) := by
  intro s h1 h2 h3 h4 h5 h6 h7 h8
  rw [List.headD_eq_head?] at h8
  constructor
  all_goals intro hlen
  all_goals
    have hne : s.isEmpty = false := by
      cases s
      · simp at hlen
      · rfl
  all_goals unfold analyzeTextStructure
  all_goals rw [splitNl_no_nl s h1]
  all_goals unfold runLines runLines
  all_goals
    simp [stepLine, initSt, h2, h3, h4, h5, h6, h7, h8, hne, analyzeHeading,
      hlen]

/-- C8 witness: both halves instantiated at concrete 59- and
61-character title-cased lines. -/
theorem C8_title_case_length_boundary_witness :
    analyzeTextStructure
        "Aa Bb Cc Dd Ee Ff Gg Hh Ii Jj Kk Ll Mm Nn Oo Pp Qq Rr Ss Tt".data =
      [{ type := .heading,
         content :=
           "Aa Bb Cc Dd Ee Ff Gg Hh Ii Jj Kk Ll Mm Nn Oo Pp Qq Rr Ss Tt".data,
         level := some 2 }] ∧
    analyzeTextStructure
        "Aa Bb Cc Dd Ee Ff Gg Hh Ii Jj Kk Ll Mm Nn Oo Pp Qq Rr Ss Ttuu".data =
      [{ type := .paragraph,
         content :=
           "Aa Bb Cc Dd Ee Ff Gg Hh Ii Jj Kk Ll Mm Nn Oo Pp Qq Rr Ss Ttuu".data }] :=
  ⟨(C8_title_case_length_boundary _ (by decide) (by decide) (by decide)
      (by decide) (by decide) (by decide) (by decide) (by decide)).1 (by decide),
   (C8_title_case_length_boundary _ (by decide) (by decide) (by decide)
      (by decide) (by decide) (by decide) (by decide) (by decide)).2 (by decide)⟩

end Markify

namespace Markify

/-! ## Configuration tolerance (C5 amended) -/

theorem pdLineStep_emph (cfg : StructureConfig)
    (h : cfg.emphasisStyle ≠ "asterisk".data) (md para raw : List Char) :
    pdLineStep { cfg with emphasisStyle := "underscore".data } md para raw =
      pdLineStep cfg md para raw := by
  unfold pdLineStep
  dsimp only
  rw [if_neg (by decide : ¬ (("underscore".data : List Char) = "asterisk".data)),
      if_neg h]

theorem pdLinesGo_emph (cfg : StructureConfig)
    (h : cfg.emphasisStyle ≠ "asterisk".data) :
    ∀ (lines : List (List Char)) (md para : List Char),
    pdLinesGo { cfg with emphasisStyle := "underscore".data } md para lines =
      pdLinesGo cfg md para lines := by
  intro lines
  induction lines with
  | nil => intro md para; rfl
  | cons l rest ih =>
    intro md para
    simp only [pdLinesGo, pdLineStep_emph cfg h, ih]

theorem pdSection_emph (cfg : StructureConfig)
    (h : cfg.emphasisStyle ≠ "asterisk".data) :
    pdSection { cfg with emphasisStyle := "underscore".data } =
      pdSection cfg := by
  funext md sec
  unfold pdSection
  dsimp only
  rw [pdLinesGo_emph cfg h]

/-- C5 amended: the rewriter performs no configuration validation at
all and never fails; it proceeds silently, and any `emphasis_style`
other than `"asterisk"` is treated exactly as `"underscore"` (the only
use of the field is the `=== 'asterisk'` test).  Out-of-range heading
depths are silently clamped by `min(depth, 3)` rather than rejected,
as the counterexample shows concretely. -/
theorem C5_invalid_config_treated_as_underscore
    (text : List Char) (cfg : StructureConfig)
    (h : cfg.emphasisStyle ≠ "asterisk".data) :
    processDocument text { cfg with emphasisStyle := "underscore".data } =
      processDocument text cfg := by
  unfold processDocument
  rw [pdSection_emph cfg h]

/-- C5 witness: the amended theorem applied to the invalid
configuration `badConfig` (`emphasis_style = "sparkles"`). -/
theorem C5_invalid_config_treated_as_underscore_witness :
    processDocument "a _b_ *c*".data
        { badConfig with emphasisStyle := "underscore".data } =
      processDocument "a _b_ *c*".data badConfig :=
  C5_invalid_config_treated_as_underscore _ badConfig (by decide)

end Markify


namespace Markify

theorem splitNl_ne_nil (l : List Char) : splitNl l ≠ [] := by
  cases l with
  | nil => simp [splitNl]
  | cons c cs =>
    unfold splitNl
    split
    · simp
    · split <;> simp

theorem splitNl_cons_eq (c : Char) (cs : List Char) {r : List Char}
    {rs : List (List Char)} (h : splitNl cs = r :: rs) :
    splitNl (c :: cs) = if c = '\n' then [] :: r :: rs else (c :: r) :: rs := by
  unfold splitNl
  rw [h]

theorem splitNl_dest (cs : List Char) :
    ∃ r rs, splitNl cs = r :: rs := by
  cases h : splitNl cs with
  | nil => exact absurd h (splitNl_ne_nil cs)
  | cons r rs => exact ⟨r, rs, rfl⟩

theorem splitNl_append (u v : List Char) :
    splitNl (u ++ '\n' :: v) = splitNl u ++ splitNl v := by
  induction u with
  | nil =>
    obtain ⟨r, rs, h⟩ := splitNl_dest v
    simp [splitNl_cons_eq '\n' v h, splitNl, h]
  | cons c cs ih =>
    obtain ⟨r, rs, h⟩ := splitNl_dest (cs ++ '\n' :: v)
    obtain ⟨r', rs', h'⟩ := splitNl_dest cs
    rw [List.cons_append, splitNl_cons_eq c _ h, splitNl_cons_eq c cs h']
    have heq : r :: rs = r' :: (rs' ++ splitNl v) := by
      rw [← h, ih, h', List.cons_append]
    injection heq with h1 h2
    subst h1; subst h2
    by_cases hc : c = '\n' <;> simp [hc]

end Markify
namespace Markify

theorem mem_splitNl_no_nl (t : List Char) :
    ∀ s ∈ splitNl t, '\n' ∉ s := by
  induction t with
  | nil => intro s hs; simp [splitNl] at hs; simp [hs]
  | cons c cs ih =>
    intro s hs
    obtain ⟨r, rs, h⟩ := splitNl_dest cs
    rw [splitNl_cons_eq c cs h] at hs
    by_cases hc : c = '\n'
    · simp only [hc, if_true] at hs
      rcases List.mem_cons.mp hs with rfl | hs
      · simp
      · exact ih s (h ▸ hs)
    · simp only [hc, if_false] at hs
      rcases List.mem_cons.mp hs with rfl | hs
      · intro hmem
        rcases List.mem_cons.mp hmem with heq | hmem
        · exact hc heq.symm
        · exact ih r (h ▸ List.mem_cons_self r rs) hmem
      · exact ih s (h ▸ List.mem_cons_of_mem r hs)

theorem mem_splitNl_sub (t : List Char) :
    ∀ s ∈ splitNl t, ∀ c ∈ s, c ∈ t := by
  induction t with
  | nil => intro s hs; simp [splitNl] at hs; simp [hs]
  | cons a cs ih =>
    intro s hs c hc
    obtain ⟨r, rs, h⟩ := splitNl_dest cs
    rw [splitNl_cons_eq a cs h] at hs
    by_cases ha : a = '\n'
    · simp only [ha, if_true] at hs
      rcases List.mem_cons.mp hs with rfl | hs
      · simp at hc
      · exact List.mem_cons_of_mem a (ih s (h ▸ hs) c hc)
    · simp only [ha, if_false] at hs
      rcases List.mem_cons.mp hs with rfl | hs
      · rcases List.mem_cons.mp hc with rfl | hc
        · exact List.mem_cons_self c cs
        · exact List.mem_cons_of_mem a
            (ih r (h ▸ List.mem_cons_self r rs) c hc)
      · exact List.mem_cons_of_mem a
          (ih s (h ▸ List.mem_cons_of_mem r hs) c hc)

theorem dropTrailWs_leading (l : List Char) : dropTrailWs l <+: l := by
  unfold dropTrailWs
  conv_rhs => rw [← l.reverse_reverse]
  exact List.reverse_prefix.mpr (List.dropWhile_suffix jsWs)

theorem mem_dropTrailWs_sub {c : Char} {l : List Char}
    (h : c ∈ dropTrailWs l) : c ∈ l :=
  (dropTrailWs_leading l).subset h

theorem mem_trimChars_sub {c : Char} {l : List Char}
    (h : c ∈ trimChars l) : c ∈ l :=
  (List.dropWhile_sublist jsWs).subset (mem_dropTrailWs_sub h)

theorem getLastD_eq_reverse_headD (l : List Char) (d : Char) :
    l.getLastD d = l.reverse.headD d := by
  rw [List.getLastD_eq_getLast? d l, ← List.head?_reverse]
  cases l.reverse <;> rfl

theorem dropTrailWs_eq_self {l : List Char}
    (h : jsWs (l.getLastD 'x') = false) : dropTrailWs l = l := by
  unfold dropTrailWs
  rw [getLastD_eq_reverse_headD] at h
  cases hl : l.reverse with
  | nil =>
    rw [List.reverse_eq_nil_iff] at hl
    simp [hl]
  | cons a as =>
    rw [hl] at h
    simp only [List.headD_cons] at h
    rw [List.dropWhile_cons, h]
    simp only [Bool.false_eq_true, if_false]
    rw [← hl, List.reverse_reverse]

theorem dropTrailWs_append_all_ws {u w : List Char}
    (hu : jsWs (u.getLastD 'x') = false) (hw : ∀ c ∈ w, jsWs c = true) :
    dropTrailWs (u ++ w) = u := by
  unfold dropTrailWs
  rw [List.reverse_append, List.dropWhile_append]
  have h1 : w.reverse.dropWhile jsWs = [] := by
    rw [List.dropWhile_eq_nil_iff]
    intro c hc
    exact hw c (List.mem_reverse.mp hc)
  rw [h1]
  simp only [List.isEmpty_nil, if_true]
  have h2 := dropTrailWs_eq_self hu
  unfold dropTrailWs at h2
  rw [h2]

theorem trimChars_eq_self {l : List Char}
    (h1 : jsWs (l.headD 'x') = false) (h2 : jsWs (l.getLastD 'x') = false) :
    trimChars l = l := by
  unfold trimChars
  cases l with
  | nil => rfl
  | cons a as =>
    simp only [List.headD_cons] at h1
    rw [List.dropWhile_cons, h1]
    simp only [Bool.false_eq_true, if_false]
    exact dropTrailWs_eq_self h2

end Markify

namespace Markify

theorem dropWhile_headD_not {p : Char → Bool} {l : List Char} {d : Char}
    (h : l.dropWhile p ≠ []) : p ((l.dropWhile p).headD d) = false := by
  induction l with
  | nil => simp at h
  | cons a as ih =>
    rw [List.dropWhile_cons]
    by_cases hp : p a
    · rw [List.dropWhile_cons] at h
      simp only [hp, if_true] at h ⊢
      exact ih h
    · simp only [hp]
      simp only [Bool.false_eq_true, if_false, List.headD_cons]
      exact eq_false_of_ne_true hp

theorem prefix_headD {u v : List Char} {d : Char} (h : u <+: v)
    (hne : u ≠ []) : u.headD d = v.headD d := by
  obtain ⟨w, rfl⟩ := h
  cases u with
  | nil => exact absurd rfl hne
  | cons a as => rfl

theorem trimChars_headD_nonws {l : List Char} (h : trimChars l ≠ []) :
    jsWs ((trimChars l).headD 'x') = false := by
  unfold trimChars at h ⊢
  rw [prefix_headD (dropTrailWs_leading (l.dropWhile jsWs)) h]
  apply dropWhile_headD_not
  intro h'
  rw [dropTrailWs, h'] at h
  exact h rfl

theorem dropTrailWs_getLastD {l : List Char} {d : Char} :
    (dropTrailWs l).getLastD d = (l.reverse.dropWhile jsWs).headD d := by
  rw [getLastD_eq_reverse_headD, dropTrailWs, List.reverse_reverse]

theorem trimChars_getLastD_nonws {l : List Char} (h : trimChars l ≠ []) :
    jsWs ((trimChars l).getLastD 'x') = false := by
  unfold trimChars at h ⊢
  rw [dropTrailWs_getLastD]
  apply dropWhile_headD_not
  intro h'
  rw [dropTrailWs, h'] at h
  exact h rfl

theorem trimChars_nil : trimChars [] = [] := rfl

theorem trimChars_idem (l : List Char) :
    trimChars (trimChars l) = trimChars l := by
  by_cases h : trimChars l = []
  · rw [h, trimChars_nil]
  · exact trimChars_eq_self (trimChars_headD_nonws h) (trimChars_getLastD_nonws h)

/-- Terminate-and-join: each line followed by a newline. -/
def joinNlTerm : List (List Char) → List Char
  | [] => []
  | l :: ls => l ++ '\n' :: joinNlTerm ls

theorem joinNlTerm_splitNl (u : List Char) :
    joinNlTerm (splitNl u) = u ++ ['\n'] := by
  induction u with
  | nil => rfl
  | cons c cs ih =>
    obtain ⟨r, rs, h⟩ := splitNl_dest cs
    rw [splitNl_cons_eq c cs h]
    rw [h] at ih
    by_cases hc : c = '\n'
    · subst hc
      simpa [joinNlTerm] using ih
    · simp only [hc, if_false, joinNlTerm, List.cons_append, List.append_assoc]
      simp only [joinNlTerm] at ih
      rw [ih]

theorem splitNl_replicate_nl (k : Nat) :
    splitNl (List.replicate k '\n') = List.replicate (k + 1) [] := by
  induction k with
  | zero => rfl
  | succ n ih =>
    rw [List.replicate_succ]
    rw [splitNl_cons_eq '\n' _ (ih.trans (by rw [List.replicate_succ]))]
    simp [List.replicate_succ]

theorem getLastD_append_right {u v : List Char} {d : Char} (h : v ≠ []) :
    (u ++ v).getLastD d = v.getLastD d := by
  rw [getLastD_eq_reverse_headD, getLastD_eq_reverse_headD, List.reverse_append]
  apply (prefix_headD (List.prefix_append v.reverse u.reverse) _).symm
  simpa using h

end Markify

namespace Markify

theorem isPrefixOf_fence_false {t : List Char} (h : t.headD 'x' ≠ '`') :
    ['`', '`', '`'].isPrefixOf t = false := by
  cases t with
  | nil => rfl
  | cons a as =>
    simp only [List.headD_cons] at h
    simp [List.isPrefixOf, beq_eq_false_iff_ne, Ne.symm h]

theorem takeWhile_hashes (l : Nat) (c : List Char) (hc : c.headD 'x' ≠ '#') :
    ((List.replicate l '#' ++ c).takeWhile (· = '#')) = List.replicate l '#' := by
  induction l with
  | zero =>
    cases c with
    | nil => rfl
    | cons a as =>
      simp only [List.headD_cons] at hc
      simp [List.takeWhile_cons, hc]
  | succ n ih =>
    rw [List.replicate_succ]
    simp [List.takeWhile_cons, ih]

theorem atxMatch_rendered (l : Nat) (c : List Char) (h1 : 1 ≤ l) (h6 : l ≤ 6)
    (hc : jsWs (c.headD 'y') = false) (hh : c.headD 'y' ≠ '#') :
    atxMatch (List.replicate l '#' ++ ' ' :: c) = some (l, c) := by
  unfold atxMatch
  have ht : ((List.replicate l '#' ++ ' ' :: c).takeWhile (· = '#')) =
      List.replicate l '#' := takeWhile_hashes l (' ' :: c) (by simp)
  rw [ht]
  simp only [List.length_replicate]
  rw [List.drop_left' (by simp)]
  simp only [h1, h6, and_true, true_and]
  have : jsWs ' ' = true := by decide
  simp only [this, if_true, List.dropWhile_cons, this]
  cases c with
  | nil => rfl
  | cons a as =>
    simp only [List.headD_cons] at hc
    simp [List.dropWhile_cons, hc]

end Markify
namespace Markify

end Markify
namespace Markify

theorem bulletMatch_none {t : List Char}
    (h1 : (t.dropWhile jsWs).headD '#' ≠ '-')
    (h2 : (t.dropWhile jsWs).headD '#' ≠ '*')
    (h3 : (t.dropWhile jsWs).headD '#' ≠ '+') :
    bulletMatch t = none := by
  unfold bulletMatch
  cases ha : t.dropWhile jsWs with
  | nil => rfl
  | cons m rest =>
    rw [ha] at h1 h2 h3
    simp_all

theorem numberedMatch_none {t : List Char}
    (h4 : digitA ((t.dropWhile jsWs).headD '#') = false) :
    numberedMatch t = none := by
  unfold numberedMatch
  cases ha : t.dropWhile jsWs with
  | nil => rfl
  | cons m rest =>
    rw [ha] at h4
    simp only [List.headD_cons] at h4
    have htk : (m :: rest).takeWhile digitA = [] := by
      simp [List.takeWhile_cons, h4]
    simp [htk]

theorem letterMatch_none {t : List Char}
    (h5 : upperA ((t.dropWhile jsWs).headD '#') = false)
    (h6 : lowerA ((t.dropWhile jsWs).headD '#') = false) :
    letterMatch t = none := by
  unfold letterMatch
  cases ha : t.dropWhile jsWs with
  | nil => rfl
  | cons m rest =>
    rw [ha] at h5 h6
    simp only [List.headD_cons] at h5 h6
    cases rest with
    | nil => rfl
    | cons p r2 => simp [h5, h6]

theorem parenMatch_none {t : List Char}
    (h7 : (t.dropWhile jsWs).headD '#' ≠ '(') :
    parenMatch t = none := by
  unfold parenMatch
  cases ha : t.dropWhile jsWs with
  | nil => rfl
  | cons m rest =>
    rw [ha] at h7
    simp only [List.headD_cons] at h7
    split
    · next heq => injection heq with hm _; exact absurd hm h7
    · rfl

/-- A line whose first non-whitespace character (default `'#'`) is not
a list marker, digit, letter, or opening parenthesis matches none of
the four list patterns. -/
theorem detectListType_none_head {t : List Char}
    (h1 : (t.dropWhile jsWs).headD '#' ≠ '-')
    (h2 : (t.dropWhile jsWs).headD '#' ≠ '*')
    (h3 : (t.dropWhile jsWs).headD '#' ≠ '+')
    (h4 : digitA ((t.dropWhile jsWs).headD '#') = false)
    (h5 : upperA ((t.dropWhile jsWs).headD '#') = false)
    (h6 : lowerA ((t.dropWhile jsWs).headD '#') = false)
    (h7 : (t.dropWhile jsWs).headD '#' ≠ '(') :
    detectListType t = none := by
  unfold detectListType
  rw [bulletMatch_none h1 h2 h3, numberedMatch_none h4, letterMatch_none h5 h6,
    parenMatch_none h7]

end Markify
namespace Markify

theorem dropWhile_self_of_headD {l : List Char} {d : Char}
    (h : jsWs (l.headD d) = false) :
    l.dropWhile jsWs = l := by
  cases l with
  | nil => rfl
  | cons a as =>
    simp only [List.headD_cons] at h
    simp [List.dropWhile_cons, h]

theorem digitMarkerTest_false_head {t : List Char}
    (h : digitA ((t.dropWhile jsWs).headD '#') = false) :
    digitMarkerTest t = false := by
  unfold digitMarkerTest
  cases ha : t.dropWhile jsWs with
  | nil => simp
  | cons m rest =>
    rw [ha] at h
    simp only [List.headD_cons] at h
    have htk : (m :: rest).takeWhile digitA = [] := by
      simp [List.takeWhile_cons, h]
    simp [htk]

theorem detectListType_bullet_line (c : List Char)
    (hc : jsWs (c.headD 'y') = false) :
    detectListType ('-' :: ' ' :: c) = some ⟨.bullet, c, some ['-']⟩ := by
  have w1 : jsWs '-' = false := by decide
  have w2 : jsWs ' ' = true := by decide
  have hdw : ('-' :: ' ' :: c).dropWhile jsWs = '-' :: ' ' :: c := by
    simp [List.dropWhile_cons, w1]
  have hdm : digitMarkerTest ('-' :: ' ' :: c) = false := by
    apply digitMarkerTest_false_head
    rw [hdw]
    rfl
  unfold detectListType bulletMatch
  rw [hdw, hdm]
  simp only [List.headD_cons, w2, if_true]
  simp [w2, List.dropWhile_cons, dropWhile_self_of_headD hc]

theorem detectListType_numbered_line (c : List Char)
    (hc : jsWs (c.headD 'y') = false) :
    detectListType ('1' :: '.' :: ' ' :: c) = some ⟨.numbered, c, none⟩ := by
  have w1 : jsWs '1' = false := by decide
  have w2 : jsWs ' ' = true := by decide
  have d1 : digitA '1' = true := by decide
  have d2 : digitA '.' = false := by decide
  have hdw : ('1' :: '.' :: ' ' :: c).dropWhile jsWs = '1' :: '.' :: ' ' :: c := by
    simp [List.dropWhile_cons, w1]
  have htk : ('1' :: '.' :: ' ' :: c).takeWhile digitA = ['1'] := by
    simp [List.takeWhile_cons, d1, d2]
  have hdm : digitMarkerTest ('1' :: '.' :: ' ' :: c) = true := by
    unfold digitMarkerTest
    simp only [hdw, htk]
    simp
  unfold detectListType
  rw [hdm, bulletMatch_none (by rw [hdw]; simp only [List.headD_cons]; decide)
    (by rw [hdw]; simp only [List.headD_cons]; decide)
    (by rw [hdw]; simp only [List.headD_cons]; decide)]
  unfold numberedMatch
  simp only [hdw, htk, List.length_cons, List.length_nil, List.drop_succ_cons,
    List.drop_zero, List.headD_cons, w2]
  simp [w2, List.dropWhile_cons, dropWhile_self_of_headD hc]

end Markify

namespace Markify

/-! ## Well-formedness of analyzer output -/

/-- Content is its own trim, nonempty, and newline-free. -/
def contentOK (c : List Char) : Bool :=
  (trimChars c == c) && (!c.isEmpty) && (!c.contains '\n')

/-- The shape every block produced by `analyzeTextStructure` has. -/
def blockWf (b : Block) : Bool :=
  match b.type with
  | .heading =>
    contentOK b.content &&
      (match b.level with
       | some l => decide (1 ≤ l) && decide (l ≤ 6)
       | none => false)
  | .paragraph => contentOK b.content
  | .list =>
    (trimChars b.content == b.content) && (!b.content.contains '\n') &&
      ((b.listType == some ListKind.bullet && b.listIndex == none) ||
       (b.listType == some ListKind.numbered && b.listIndex == some 1))
  | .code => b.content.isEmpty || (b.content.getLastD 'x' == '\n')
  | .quote =>
    (splitNl b.content).all (fun s => s.isEmpty || !(jsWs (s.getLastD 'x')))

/-- The assembler state invariant: the open block is a well-formed
paragraph or quote, and the code accumulator is newline-terminated. -/
def stWf (st : AsmSt) : Bool :=
  (match st.cur with
   | some b => blockWf b && (b.type == .paragraph || b.type == .quote)
   | none => true) &&
  (st.accum.isEmpty || (st.accum.getLastD 'x' == '\n'))

theorem dropWhile_ne_nil_of_last {l : List Char}
    (h : jsWs (l.getLastD 'x') = false) (hne : l ≠ []) :
    l.dropWhile jsWs ≠ [] := by
  intro hd
  rw [List.dropWhile_eq_nil_iff] at hd
  have := hd (l.getLast hne) (List.getLast_mem hne)
  rw [List.getLastD_eq_getLast? 'x' l, List.getLast?_eq_getLast l hne] at h
  simp only [Option.getD_some] at h
  rw [h] at this
  exact Bool.false_ne_true this

theorem suffix_getLastD {u v : List Char} {d : Char} (h : u <:+ v)
    (hne : u ≠ []) : u.getLastD d = v.getLastD d := by
  obtain ⟨w, rfl⟩ := h
  exact (getLastD_append_right hne).symm

theorem metadataLevel_bounds {t : List Char} {lv : Nat}
    (h : metadataLevel t = some lv) : 1 ≤ lv ∧ lv ≤ 6 := by
  unfold metadataLevel at h
  split at h <;> (try split at h) <;> (try split at h) <;>
    (try split at h) <;> (try split at h) <;> (try split at h) <;>
    (try split at h) <;> simp_all <;> omega

end Markify
namespace Markify

theorem atxMatch_some_shape {t : List Char} {k : Nat} {m2 : List Char}
    (h : atxMatch t = some (k, m2)) :
    1 ≤ k ∧ k ≤ 6 ∧ m2 = (t.drop k).dropWhile jsWs ∧ t.drop k ≠ [] := by
  simp only [atxMatch] at h
  split at h
  · next c rest heq =>
    split at h
    · next hcond =>
      injection h with h'
      injection h' with h1 h2
      subst h1
      subst h2
      refine ⟨hcond.1, hcond.2.1, rfl, ?_⟩
      rw [heq]
      simp
    · cases h
  · cases h

theorem trimChars_content {t : List Char} {m2 : List Char}
    (hm : m2 ≠ []) (hhead : jsWs (m2.headD 'x') = false)
    (hlast : jsWs (m2.getLastD 'x') = false) (hsub : ∀ c ∈ m2, c ∈ t)
    (hnl : '\n' ∉ t) : contentOK (trimChars m2) = true := by
  rw [trimChars_eq_self hhead hlast]
  unfold contentOK
  rw [trimChars_eq_self hhead hlast]
  simp only [beq_self_eq_true, Bool.true_and]
  cases m2 with
  | nil => exact absurd rfl hm
  | cons a as =>
    simp only [List.isEmpty_cons, Bool.not_false, Bool.true_and]
    rw [Bool.not_eq_eq_eq_not, Bool.not_true, ← Bool.not_eq_true]
    intro hcont
    rw [List.contains_eq_any_beq] at hcont
    simp only [List.any_eq_true, beq_iff_eq] at hcont
    obtain ⟨x, hx, rfl⟩ := hcont
    exact hnl (hsub _ hx)

theorem analyzeHeading_wf {t : List Char} (n : Option (List Char))
    (ht : trimChars t = t) (hne : t ≠ []) (hnl : '\n' ∉ t)
    (hh : (analyzeHeading t n).isHeading = true) :
    (analyzeHeading t n).remaining = [] ∧
    (∃ l, (analyzeHeading t n).level = some l ∧ 1 ≤ l ∧ l ≤ 6) ∧
    contentOK (analyzeHeading t n).headingText = true ∧
    (∀ c ∈ (analyzeHeading t n).headingText, c ∈ t) := by
  have hlast : jsWs (t.getLastD 'x') = false := by
    rw [← ht]; exact trimChars_getLastD_nonws (by rw [ht]; exact hne)
  have hhead : jsWs (t.headD 'x') = false := by
    rw [← ht]; exact trimChars_headD_nonws (by rw [ht]; exact hne)
  have hselfOK : contentOK (trimChars t) = true :=
    @trimChars_content t t hne hhead hlast (fun c hc => hc) hnl
  have hselfSub : ∀ c ∈ trimChars t, c ∈ t := fun c hc => mem_trimChars_sub hc
  unfold analyzeHeading at hh ⊢
  split
  · next k m2 heq =>
    obtain ⟨h1, h6, hm2, hrest⟩ := atxMatch_some_shape heq
    have hrsuf : t.drop k <:+ t := List.drop_suffix k t
    have hrlast : jsWs ((t.drop k).getLastD 'x') = false := by
      rw [suffix_getLastD hrsuf hrest]; exact hlast
    have hm2ne : m2 ≠ [] := by
      rw [hm2]; exact dropWhile_ne_nil_of_last hrlast hrest
    have hm2head : jsWs (m2.headD 'x') = false := by
      rw [hm2]; exact dropWhile_headD_not (hm2 ▸ hm2ne)
    have hm2last : jsWs (m2.getLastD 'x') = false := by
      rw [hm2, suffix_getLastD (List.dropWhile_suffix jsWs) (hm2 ▸ hm2ne), ← suffix_getLastD hrsuf hrest] at *
      exact hlast
    have hm2sub : ∀ c ∈ m2, c ∈ t := by
      intro c hc
      rw [hm2] at hc
      exact (hrsuf.subset) ((List.dropWhile_sublist jsWs).subset hc)
    exact ⟨rfl, ⟨k, rfl, h1, h6⟩,
      trimChars_content hm2ne hm2head hm2last hm2sub hnl, by
        intro c hc
        exact hm2sub c (mem_trimChars_sub hc)⟩
  · next heq =>
    rw [heq] at hh
    split
    · next nl =>
      split
      · exact ⟨rfl, ⟨1, rfl, le_refl 1, by omega⟩, hselfOK, hselfSub⟩
      · split
        · exact ⟨rfl, ⟨2, rfl, by omega, by omega⟩, hselfOK, hselfSub⟩
        · split
          · next lv hml =>
            obtain ⟨hl1, hl6⟩ := metadataLevel_bounds hml
            exact ⟨rfl, ⟨lv, rfl, hl1, hl6⟩, hselfOK, hselfSub⟩
          · split
            · exact ⟨rfl, ⟨2, rfl, by omega, by omega⟩, hselfOK, hselfSub⟩
            · simp_all
    · split
      · next lv hml =>
        obtain ⟨hl1, hl6⟩ := metadataLevel_bounds hml
        exact ⟨rfl, ⟨lv, rfl, hl1, hl6⟩, hselfOK, hselfSub⟩
      · split
        · exact ⟨rfl, ⟨2, rfl, by omega, by omega⟩, hselfOK, hselfSub⟩
        · simp_all

end Markify
namespace Markify

theorem quoteStrip_suffix (t : List Char) : quoteStrip t <:+ t := by
  unfold quoteStrip
  split
  · next c rest =>
    split
    · exact ⟨['>', c], rfl⟩
    · exact ⟨['>'], rfl⟩
  · exact ⟨['>'], rfl⟩
  · exact List.suffix_refl _

theorem bulletMatch_sub {l : List Char} {cap rest : List Char}
    (h : bulletMatch l = some (cap, rest)) : ∀ c ∈ rest, c ∈ l := by
  unfold bulletMatch at h
  split at h
  · next m r heq =>
    split at h
    · injection h with h'
      injection h' with h1 h2
      subst h2
      intro c hc
      have : c ∈ m :: r := List.mem_cons_of_mem m
        ((List.dropWhile_sublist jsWs).subset hc)
      rw [← heq] at this
      exact (List.dropWhile_sublist jsWs).subset this
    · cases h
  · cases h

theorem numberedMatch_sub {l : List Char} {rest : List Char}
    (h : numberedMatch l = some rest) : ∀ c ∈ rest, c ∈ l := by
  simp only [numberedMatch] at h
  split at h
  · next p r heq =>
    split at h
    · injection h with h'
      subst h'
      intro c hc
      have h1 : c ∈ p :: r := List.mem_cons_of_mem p
        ((List.dropWhile_sublist jsWs).subset hc)
      rw [← heq] at h1
      have h2 := (List.drop_subset _ _) h1
      exact (List.dropWhile_sublist jsWs).subset h2
    · cases h
  · cases h

theorem letterMatch_sub {l : List Char} {rest : List Char}
    (h : letterMatch l = some rest) : ∀ c ∈ rest, c ∈ l := by
  unfold letterMatch at h
  split at h
  · next a p r heq =>
    split at h
    · injection h with h'
      subst h'
      intro c hc
      have h1 : c ∈ a :: p :: r := List.mem_cons_of_mem a
        (List.mem_cons_of_mem p ((List.dropWhile_sublist jsWs).subset hc))
      rw [← heq] at h1
      exact (List.dropWhile_sublist jsWs).subset h1
    · cases h
  · cases h

theorem parenMatch_sub {l : List Char} {rest : List Char}
    (h : parenMatch l = some rest) : ∀ c ∈ rest, c ∈ l := by
  simp only [parenMatch] at h
  split at h
  · next b heq =>
    split at h
    · next r heq2 =>
      split at h
      · injection h with h'
        subst h'
        intro c hc
        have h1 : c ∈ ')' :: r := List.mem_cons_of_mem ')'
          ((List.dropWhile_sublist jsWs).subset hc)
        rw [← heq2] at h1
        have h2 := (List.drop_subset _ _) h1
        have h3 : c ∈ '(' :: b := List.mem_cons_of_mem '(' h2
        rw [← heq] at h3
        exact (List.dropWhile_sublist jsWs).subset h3
      · cases h
    · cases h
  · cases h

theorem detect_stripped_sub {l : List Char} {lm : ListMatch}
    (h : detectListType l = some lm) : ∀ c ∈ lm.stripped, c ∈ l := by
  unfold detectListType at h
  cases hb : bulletMatch l with
  | some pr =>
    obtain ⟨cap, rest⟩ := pr
    rw [hb] at h
    injection h with h'
    subst h'
    exact bulletMatch_sub hb
  | none =>
    rw [hb] at h
    cases hn : numberedMatch l with
    | some rest =>
      rw [hn] at h
      injection h with h'
      subst h'
      exact numberedMatch_sub hn
    | none =>
      rw [hn] at h
      cases hl : letterMatch l with
      | some rest =>
        rw [hl] at h
        injection h with h'
        subst h'
        exact letterMatch_sub hl
      | none =>
        rw [hl] at h
        cases hp : parenMatch l with
        | some rest =>
          rw [hp] at h
          injection h with h'
          subst h'
          exact parenMatch_sub hp
        | none =>
          rw [hp] at h
          cases h

theorem bulletMatch_not_digit {l : List Char} {pr : List Char × List Char}
    (h : bulletMatch l = some pr) : digitMarkerTest l = false := by
  unfold bulletMatch at h
  split at h
  · next m r heq =>
    split at h
    · next hcond =>
      apply digitMarkerTest_false_head
      rw [heq]
      simp only [List.headD_cons]
      rcases hcond.1 with rfl | rfl | rfl <;> decide
    · cases h
  · cases h

theorem detect_numbered_index {l : List Char} {lm : ListMatch}
    (h : detectListType l = some lm) (hk : lm.kind = .numbered) :
    lm.index = none := by
  unfold detectListType at h
  cases hb : bulletMatch l with
  | some pr =>
    obtain ⟨cap, rest⟩ := pr
    rw [hb] at h
    injection h with h'
    subst h'
    simp only at hk
    rw [bulletMatch_not_digit hb] at hk
    simp at hk
  | none =>
    rw [hb] at h
    cases hn : numberedMatch l with
    | some rest =>
      rw [hn] at h
      injection h with h'
      subst h'
      rfl
    | none =>
      rw [hn] at h
      cases hl : letterMatch l with
      | some rest =>
        rw [hl] at h
        injection h with h'
        subst h'
        rfl
      | none =>
        rw [hl] at h
        cases hp : parenMatch l with
        | some rest =>
          rw [hp] at h
          injection h with h'
          subst h'
          rfl
        | none =>
          rw [hp] at h
          cases h

end Markify
namespace Markify

theorem not_mem_of_contains_false {x : Char} {l : List Char}
    (h : l.contains x = false) : x ∉ l := by
  intro hx
  rw [List.contains_eq_any_beq] at h
  simp only [List.any_eq_false, beq_iff_eq] at h
  exact h x hx rfl

theorem contains_false_of_not_mem {x : Char} {l : List Char}
    (h : x ∉ l) : l.contains x = false := by
  rw [List.contains_eq_any_beq]
  simp only [List.any_eq_false, beq_iff_eq]
  intro a ha he
  exact h (he ▸ ha)

theorem getLastD_indep {l : List Char} (h : l ≠ []) (d d' : Char) :
    l.getLastD d = l.getLastD d' := by
  rw [List.getLastD_eq_getLast? d l, List.getLastD_eq_getLast? d' l,
    List.getLast?_eq_getLast l h]
  rfl

theorem contentOK_parts {c : List Char} (h : contentOK c = true) :
    trimChars c = c ∧ c ≠ [] ∧ '\n' ∉ c ∧
    jsWs (c.headD 'x') = false ∧ jsWs (c.getLastD 'x') = false := by
  unfold contentOK at h
  simp only [Bool.and_eq_true, beq_iff_eq, Bool.not_eq_true'] at h
  obtain ⟨⟨h1, h2⟩, h3⟩ := h
  replace h2 : c ≠ [] := by simpa using h2
  refine ⟨h1, h2, not_mem_of_contains_false h3, ?_, ?_⟩
  · rw [← h1]; exact trimChars_headD_nonws (by rw [h1]; exact h2)
  · rw [← h1]; exact trimChars_getLastD_nonws (by rw [h1]; exact h2)

theorem contentOK_of (c : List Char) (h1 : trimChars c = c) (h2 : c ≠ [])
    (h3 : '\n' ∉ c) : contentOK c = true := by
  unfold contentOK
  simp only [Bool.and_eq_true, beq_iff_eq, Bool.not_eq_true']
  exact ⟨⟨h1, by simpa using h2⟩, contains_false_of_not_mem h3⟩

theorem contentOK_join {a b : List Char} (ha : contentOK a = true)
    (hb2 : b ≠ []) (hb3 : jsWs (b.getLastD 'x') = false) (hbn : '\n' ∉ b) :
    contentOK (a ++ ' ' :: b) = true := by
  obtain ⟨ha1, ha2, ha3, hah, _⟩ := contentOK_parts ha
  apply contentOK_of
  · apply trimChars_eq_self
    · rw [← prefix_headD (List.prefix_append a (' ' :: b)) ha2]
      exact hah
    · rw [getLastD_append_right (by simp : (' ' :: b : List Char) ≠ []),
        List.getLastD_cons, getLastD_indep hb2 ' ' 'x']
      exact hb3
  · simp
  · intro hmem
    rcases List.mem_append.mp hmem with hm | hm
    · exact ha3 hm
    · rcases List.mem_cons.mp hm with he | hm
      · cases he
    
      · exact hbn hm

end Markify
namespace Markify

theorem stWf_parts {st : AsmSt} (h : stWf st = true) :
    (∀ b, st.cur = some b →
      blockWf b = true ∧ (b.type = .paragraph ∨ b.type = .quote)) ∧
    (st.accum = [] ∨ st.accum.getLastD 'x' = '\n') := by
  unfold stWf at h
  simp only [Bool.and_eq_true] at h
  obtain ⟨h1, h2⟩ := h
  constructor
  · intro b hb
    rw [hb] at h1
    simp only [Bool.and_eq_true, Bool.or_eq_true, beq_iff_eq] at h1
    exact h1
  · simp only [Bool.or_eq_true, beq_iff_eq] at h2
    rcases h2 with h2 | h2
    · left; simpa using h2
    · right; exact h2

theorem stWf_of {cur : Option Block} {acc : List Char}
    {ic : Bool}
    (h1 : ∀ b, cur = some b →
      blockWf b = true ∧ (b.type = .paragraph ∨ b.type = .quote))
    (h2 : acc = [] ∨ acc.getLastD 'x' = '\n') :
    stWf ⟨cur, ic, acc⟩ = true := by
  unfold stWf
  simp only [Bool.and_eq_true]
  constructor
  · cases cur with
    | none => rfl
    | some b =>
      obtain ⟨hb, ht⟩ := h1 b rfl
      simp only [Bool.and_eq_true, Bool.or_eq_true, beq_iff_eq]
      exact ⟨hb, ht⟩
  · simp only [Bool.or_eq_true, beq_iff_eq]
    rcases h2 with h2 | h2
    · left; simp [h2]
    · right; exact h2

theorem quote_seg_ok {t : List Char} (ht : trimChars t = t) (hne : t ≠ [])
    (hnl : '\n' ∉ t) :
    (splitNl (quoteStrip t)).all
      (fun s => s.isEmpty || !(jsWs (s.getLastD 'x'))) = true := by
  have hsub := quoteStrip_suffix t
  have hnlq : '\n' ∉ quoteStrip t := fun hm => hnl (hsub.subset hm)
  rw [splitNl_no_nl _ hnlq]
  rw [List.all_cons, List.all_nil, Bool.and_true]
  by_cases hq : quoteStrip t = []
  · simp [hq]
  · rw [Bool.or_eq_true]
    right
    rw [Bool.not_eq_true', suffix_getLastD hsub hq]
    have h2 := trimChars_getLastD_nonws (l := t) (by rw [ht]; exact hne)
    rw [ht] at h2
    exact h2

/-- The wf-block built by the quote branch. -/
theorem quote_block_wf {t : List Char} (ht : trimChars t = t) (hne : t ≠ [])
    (hnl : '\n' ∉ t) :
    blockWf { type := .quote, content := quoteStrip t } = true := by
  unfold blockWf
  exact quote_seg_ok ht hne hnl

/-- The wf-block built by the list branch. -/
theorem list_block_wf {raw : List Char} {lm : ListMatch}
    (hd : detectListType raw = some lm) (hnl : '\n' ∉ raw) :
    blockWf { type := .list, content := trimChars lm.stripped,
              listType := some lm.kind,
              listIndex := if lm.kind = .numbered then
                jsParseInt (lm.index.getD ['1']) else none } = true := by
  unfold blockWf
  simp only [Bool.and_eq_true, beq_iff_eq, Bool.or_eq_true]
  refine ⟨⟨trimChars_idem _, ?_⟩, ?_⟩
  · rw [Bool.not_eq_true']
    apply contains_false_of_not_mem
    intro hm
    exact hnl (detect_stripped_sub hd _ (mem_trimChars_sub hm))
  · cases hk : lm.kind with
    | bullet => left; simp [hk]
    | numbered =>
      right
      rw [detect_numbered_index hd hk]
      simp only [hk, if_true, Option.getD]
      exact ⟨trivial, rfl⟩

/-- The wf-block built by the heading branch. -/
theorem heading_block_wf {t : List Char} {n : Option (List Char)}
    (ht : trimChars t = t) (hne : t ≠ []) (hnl : '\n' ∉ t)
    (hh : (analyzeHeading t n).isHeading = true) :
    blockWf { type := .heading,
              content := (analyzeHeading t n).headingText,
              level := (analyzeHeading t n).level } = true := by
  obtain ⟨_, ⟨l, hl, h1, h6⟩, hcOK, _⟩ := analyzeHeading_wf n ht hne hnl hh
  unfold blockWf
  simp only [hl, hcOK, Bool.true_and]
  simp [h1, h6]

theorem para_block_wf {t : List Char} (ht : trimChars t = t) (hne : t ≠ [])
    (hnl : '\n' ∉ t) :
    blockWf { type := .paragraph, content := t } = true := by
  unfold blockWf
  exact contentOK_of t ht hne hnl

/-! ## Branch evaluation lemmas for `stepLine` -/

theorem stepLine_fence_open {cur : Option Block} {acc raw : List Char}
    {n : Option (List Char)}
    (hf : ['`', '`', '`'].isPrefixOf (trimChars raw) = true) :
    stepLine ⟨cur, false, acc⟩ raw n = (⟨cur, true, acc⟩, []) := by
  simp [stepLine, hf]

theorem stepLine_fence_close {cur : Option Block} {acc raw : List Char}
    {n : Option (List Char)}
    (hf : ['`', '`', '`'].isPrefixOf (trimChars raw) = true) :
    stepLine ⟨cur, true, acc⟩ raw n =
      (⟨cur, false, []⟩, [{ type := .code, content := acc }]) := by
  simp [stepLine, hf]

theorem stepLine_accum {cur : Option Block} {acc raw : List Char}
    {n : Option (List Char)}
    (hf : ['`', '`', '`'].isPrefixOf (trimChars raw) = false) :
    stepLine ⟨cur, true, acc⟩ raw n =
      (⟨cur, true, acc ++ raw ++ ['\n']⟩, []) := by
  simp [stepLine, hf]

theorem stepLine_blank_none {acc raw : List Char} {n : Option (List Char)}
    (hb : trimChars raw = []) :
    stepLine ⟨none, false, acc⟩ raw n = (⟨none, false, acc⟩, []) := by
  simp [stepLine, hb]

theorem stepLine_blank_flush {b : Block} {acc raw : List Char}
    {n : Option (List Char)} (hb : trimChars raw = [])
    (ht : b.type ≠ .list) :
    stepLine ⟨some b, false, acc⟩ raw n = (⟨none, false, []⟩, [b]) := by
  simp [stepLine, hb, ht]

theorem stepLine_quote_none {acc raw : List Char} {n : Option (List Char)}
    (hf : ['`', '`', '`'].isPrefixOf (trimChars raw) = false)
    (hb : (trimChars raw).isEmpty = false)
    (hq : (trimChars raw).headD 'x' = '>') :
    stepLine ⟨none, false, acc⟩ raw n =
      (⟨some { type := .quote, content := quoteStrip (trimChars raw) },
        false, []⟩, []) := by
  rw [List.headD_eq_head?] at hq
  simp [stepLine, hf, hb, hq]

theorem stepLine_quote_append {b : Block} {acc raw : List Char}
    {n : Option (List Char)}
    (hf : ['`', '`', '`'].isPrefixOf (trimChars raw) = false)
    (hb : (trimChars raw).isEmpty = false)
    (hq2 : (trimChars raw).headD 'x' = '>') (ht : b.type = .quote) :
    stepLine ⟨some b, false, acc⟩ raw n =
      (⟨some { b with
          content := b.content ++ '\n' :: quoteStrip (trimChars raw) },
        false, []⟩, []) := by
  have hq := hq2
  rw [List.headD_eq_head?] at hq
  simp [stepLine, hf, hb, hq, ht]

theorem stepLine_quote_flush {b : Block} {acc raw : List Char}
    {n : Option (List Char)}
    (hf : ['`', '`', '`'].isPrefixOf (trimChars raw) = false)
    (hb : (trimChars raw).isEmpty = false)
    (hq2 : (trimChars raw).headD 'x' = '>') (ht : b.type ≠ .quote) :
    stepLine ⟨some b, false, acc⟩ raw n =
      (⟨some { type := .quote, content := quoteStrip (trimChars raw) },
        false, []⟩, [b]) := by
  have hq := hq2
  rw [List.headD_eq_head?] at hq
  simp [stepLine, hf, hb, hq, ht]

/-- The block the list branch pushes. -/
def listBlockOf (lm : ListMatch) : Block :=
  { type := .list, content := trimChars lm.stripped,
    listType := some lm.kind,
    listIndex := if lm.kind = .numbered then
      jsParseInt (lm.index.getD ['1']) else none }

theorem stepLine_list_none {acc raw : List Char} {n : Option (List Char)}
    {lm : ListMatch}
    (hf : ['`', '`', '`'].isPrefixOf (trimChars raw) = false)
    (hb : (trimChars raw).isEmpty = false)
    (hq2 : ¬ (trimChars raw).headD 'x' = '>')
    (hd : detectListType raw = some lm) :
    stepLine ⟨none, false, acc⟩ raw n =
      (⟨none, false, []⟩, [listBlockOf lm]) := by
  have hq := hq2
  rw [List.headD_eq_head?] at hq
  simp [stepLine, hf, hb, hq, hd, listBlockOf]

theorem stepLine_list_flush {b : Block} {acc raw : List Char}
    {n : Option (List Char)} {lm : ListMatch}
    (hf : ['`', '`', '`'].isPrefixOf (trimChars raw) = false)
    (hb : (trimChars raw).isEmpty = false)
    (hq2 : ¬ (trimChars raw).headD 'x' = '>')
    (hd : detectListType raw = some lm) (ht : b.type ≠ .list) :
    stepLine ⟨some b, false, acc⟩ raw n =
      (⟨none, false, []⟩, [b, listBlockOf lm]) := by
  have hq := hq2
  rw [List.headD_eq_head?] at hq
  simp [stepLine, hf, hb, hq, hd, ht, listBlockOf]

/-- The block the heading branch pushes. -/
def headBlockOf (t : List Char) (n : Option (List Char)) : Block :=
  { type := .heading, content := (analyzeHeading t n).headingText,
    level := (analyzeHeading t n).level }

theorem stepLine_heading_none {acc raw : List Char} {n : Option (List Char)}
    (hf : ['`', '`', '`'].isPrefixOf (trimChars raw) = false)
    (hb : (trimChars raw).isEmpty = false)
    (hq2 : ¬ (trimChars raw).headD 'x' = '>')
    (hd : detectListType raw = none)
    (hh : (analyzeHeading (trimChars raw) n).isHeading = true)
    (hr : (analyzeHeading (trimChars raw) n).remaining = []) :
    stepLine ⟨none, false, acc⟩ raw n =
      (⟨none, false, []⟩, [headBlockOf (trimChars raw) n]) := by
  have hq := hq2
  rw [List.headD_eq_head?] at hq
  simp [stepLine, hf, hb, hq, hd, hh, hr, headBlockOf]

theorem stepLine_heading_flush {b : Block} {acc raw : List Char}
    {n : Option (List Char)}
    (hf : ['`', '`', '`'].isPrefixOf (trimChars raw) = false)
    (hb : (trimChars raw).isEmpty = false)
    (hq2 : ¬ (trimChars raw).headD 'x' = '>')
    (hd : detectListType raw = none)
    (hh : (analyzeHeading (trimChars raw) n).isHeading = true)
    (hr : (analyzeHeading (trimChars raw) n).remaining = []) :
    stepLine ⟨some b, false, acc⟩ raw n =
      (⟨none, false, []⟩, [b, headBlockOf (trimChars raw) n]) := by
  have hq := hq2
  rw [List.headD_eq_head?] at hq
  simp [stepLine, hf, hb, hq, hd, hh, hr, headBlockOf]

theorem stepLine_plain_none {acc raw : List Char} {n : Option (List Char)}
    (hf : ['`', '`', '`'].isPrefixOf (trimChars raw) = false)
    (hb : (trimChars raw).isEmpty = false)
    (hq2 : ¬ (trimChars raw).headD 'x' = '>')
    (hd : detectListType raw = none)
    (hh : (analyzeHeading (trimChars raw) n).isHeading = false) :
    stepLine ⟨none, false, acc⟩ raw n =
      (⟨some { type := .paragraph, content := trimChars raw }, false, []⟩,
        []) := by
  have hq := hq2
  rw [List.headD_eq_head?] at hq
  simp [stepLine, hf, hb, hq, hd, hh]

theorem stepLine_plain_append {b : Block} {acc raw : List Char}
    {n : Option (List Char)}
    (hf : ['`', '`', '`'].isPrefixOf (trimChars raw) = false)
    (hb : (trimChars raw).isEmpty = false)
    (hq2 : ¬ (trimChars raw).headD 'x' = '>')
    (hd : detectListType raw = none)
    (hh : (analyzeHeading (trimChars raw) n).isHeading = false)
    (ht : b.type = .paragraph) :
    stepLine ⟨some b, false, acc⟩ raw n =
      (⟨some { b with content := b.content ++ ' ' :: trimChars raw },
        false, []⟩, []) := by
  have hq := hq2
  rw [List.headD_eq_head?] at hq
  simp [stepLine, hf, hb, hq, hd, hh, ht]

theorem stepLine_plain_flush {b : Block} {acc raw : List Char}
    {n : Option (List Char)}
    (hf : ['`', '`', '`'].isPrefixOf (trimChars raw) = false)
    (hb : (trimChars raw).isEmpty = false)
    (hq2 : ¬ (trimChars raw).headD 'x' = '>')
    (hd : detectListType raw = none)
    (hh : (analyzeHeading (trimChars raw) n).isHeading = false)
    (ht : b.type ≠ .paragraph) :
    stepLine ⟨some b, false, acc⟩ raw n =
      (⟨some { type := .paragraph, content := trimChars raw }, false, []⟩,
        [b]) := by
  have hq := hq2
  rw [List.headD_eq_head?] at hq
  simp [stepLine, hf, hb, hq, hd, hh, ht]

theorem listBlockOf_wf {raw : List Char} {lm : ListMatch}
    (hd : detectListType raw = some lm) (hnl : '\n' ∉ raw) :
    blockWf (listBlockOf lm) = true :=
  list_block_wf hd hnl

theorem headBlockOf_wf {t : List Char} {n : Option (List Char)}
    (ht : trimChars t = t) (hne : t ≠ []) (hnl : '\n' ∉ t)
    (hh : (analyzeHeading t n).isHeading = true) :
    blockWf (headBlockOf t n) = true :=
  heading_block_wf ht hne hnl hh

theorem quote_append_wf {b : Block} {t : List Char}
    (hbw : blockWf b = true) (hbt : b.type = .quote)
    (ht : trimChars t = t) (hne : t ≠ []) (hnl : '\n' ∉ t) :
    blockWf { b with content := b.content ++ '\n' :: quoteStrip t } =
      true := by
  have hseg := quote_seg_ok ht hne hnl
  unfold blockWf at hbw ⊢
  simp only [hbt] at hbw ⊢
  rw [splitNl_append, List.all_append]
  rw [Bool.and_eq_true]
  exact ⟨hbw, hseg⟩

theorem stepLine_wf {st : AsmSt} {raw : List Char} (n : Option (List Char))
    (hnl : '\n' ∉ raw) (hw : stWf st = true) :
    stWf (stepLine st raw n).1 = true ∧
    ∀ b ∈ (stepLine st raw n).2, blockWf b = true := by
  obtain ⟨hcur, hacc⟩ := stWf_parts hw
  obtain ⟨cur, ic, acc⟩ := st
  simp only at hcur hacc
  have hnlt : '\n' ∉ trimChars raw := fun hm => hnl (mem_trimChars_sub hm)
  have htt := trimChars_idem raw
  by_cases hf : ['`', '`', '`'].isPrefixOf (trimChars raw) = true
  · cases ic with
    | false =>
      rw [stepLine_fence_open hf]
      exact ⟨stWf_of hcur hacc, by simp⟩
    | true =>
      rw [stepLine_fence_close hf]
      refine ⟨stWf_of hcur (Or.inl rfl), ?_⟩
      intro b hb
      rcases List.mem_singleton.mp hb with rfl
      show blockWf { type := .code, content := acc } = true
      unfold blockWf
      rcases hacc with h | h
      · simp [h]
      · rw [Bool.or_eq_true]
        right
        rw [beq_iff_eq]
        exact h
  · rw [Bool.not_eq_true] at hf
    cases ic with
    | true =>
      rw [stepLine_accum hf]
      refine ⟨stWf_of hcur (Or.inr ?_), by simp⟩
      rw [getLastD_append_right (by simp : (['\n'] : List Char) ≠ [])]
      rfl
    | false =>
      by_cases hbl : trimChars raw = []
      · cases cur with
        | none =>
          rw [stepLine_blank_none hbl]
          exact ⟨stWf_of hcur hacc, by simp⟩
        | some b =>
          obtain ⟨hbw, hbt⟩ := hcur b rfl
          have hbt' : b.type ≠ .list := by
            rcases hbt with h | h <;> simp [h]
          rw [stepLine_blank_flush hbl hbt']
          refine ⟨stWf_of (by intro x hx; cases hx) (Or.inl rfl), ?_⟩
          intro x hx
          rcases List.mem_singleton.mp hx with rfl
          exact hbw
      · have hbe : (trimChars raw).isEmpty = false := by
          cases h : trimChars raw with
          | nil => exact absurd h hbl
          | cons a as => rfl
        by_cases hq : (trimChars raw).headD 'x' = '>'
        · cases cur with
          | none =>
            rw [stepLine_quote_none hf hbe hq]
            refine ⟨stWf_of ?_ (Or.inl rfl), by simp⟩
            intro x hx
            injection hx with hx
            subst hx
            exact ⟨quote_block_wf htt hbl hnlt, Or.inr rfl⟩
          | some b =>
            obtain ⟨hbw, hbt⟩ := hcur b rfl
            by_cases hqt : b.type = .quote
            · rw [stepLine_quote_append hf hbe hq hqt]
              refine ⟨stWf_of ?_ (Or.inl rfl), by simp⟩
              intro x hx
              injection hx with hx
              subst hx
              exact ⟨quote_append_wf hbw hqt htt hbl hnlt, Or.inr hqt⟩
            · rw [stepLine_quote_flush hf hbe hq hqt]
              refine ⟨stWf_of ?_ (Or.inl rfl), ?_⟩
              · intro x hx
                injection hx with hx
                subst hx
                exact ⟨quote_block_wf htt hbl hnlt, Or.inr rfl⟩
              · intro x hx
                rcases List.mem_singleton.mp hx with rfl
                exact hbw
        · cases hd : detectListType raw with
          | some lm =>
            cases cur with
            | none =>
              rw [stepLine_list_none hf hbe hq hd]
              refine ⟨stWf_of (by intro x hx; cases hx) (Or.inl rfl), ?_⟩
              intro x hx
              rcases List.mem_singleton.mp hx with rfl
              exact listBlockOf_wf hd hnl
            | some b =>
              obtain ⟨hbw, hbt⟩ := hcur b rfl
              have hbt' : b.type ≠ .list := by
                rcases hbt with h | h <;> simp [h]
              rw [stepLine_list_flush hf hbe hq hd hbt']
              refine ⟨stWf_of (by intro x hx; cases hx) (Or.inl rfl), ?_⟩
              intro x hx
              rcases List.mem_cons.mp hx with rfl | hx
              · exact hbw
              · rcases List.mem_singleton.mp hx with rfl
                exact listBlockOf_wf hd hnl
          | none =>
            by_cases hh : (analyzeHeading (trimChars raw) n).isHeading = true
            · obtain ⟨hr, _, _, _⟩ := analyzeHeading_wf n htt hbl hnlt hh
              cases cur with
              | none =>
                rw [stepLine_heading_none hf hbe hq hd hh hr]
                refine ⟨stWf_of (by intro x hx; cases hx) (Or.inl rfl), ?_⟩
                intro x hx
                rcases List.mem_singleton.mp hx with rfl
                exact headBlockOf_wf htt hbl hnlt hh
              | some b =>
                obtain ⟨hbw, hbt⟩ := hcur b rfl
                rw [stepLine_heading_flush hf hbe hq hd hh hr]
                refine ⟨stWf_of (by intro x hx; cases hx) (Or.inl rfl), ?_⟩
                intro x hx
                rcases List.mem_cons.mp hx with rfl | hx
                · exact hbw
                · rcases List.mem_singleton.mp hx with rfl
                  exact headBlockOf_wf htt hbl hnlt hh
            · rw [Bool.not_eq_true] at hh
              cases cur with
              | none =>
                rw [stepLine_plain_none hf hbe hq hd hh]
                refine ⟨stWf_of ?_ (Or.inl rfl), by simp⟩
                intro x hx
                injection hx with hx
                subst hx
                exact ⟨para_block_wf htt hbl hnlt, Or.inl rfl⟩
              | some b =>
                obtain ⟨hbw, hbt⟩ := hcur b rfl
                by_cases hpt : b.type = .paragraph
                · rw [stepLine_plain_append hf hbe hq hd hh hpt]
                  refine ⟨stWf_of ?_ (Or.inl rfl), by simp⟩
                  intro x hx
                  injection hx with hx
                  subst hx
                  constructor
                  · show blockWf _ = true
                    unfold blockWf at hbw ⊢
                    simp only [hpt] at hbw ⊢
                    refine contentOK_join hbw hbl ?_ hnlt
                    rw [← htt]
                    exact trimChars_getLastD_nonws (by rw [htt]; exact hbl)
                  · exact Or.inl hpt
                · rw [stepLine_plain_flush hf hbe hq hd hh hpt]
                  refine ⟨stWf_of ?_ (Or.inl rfl), ?_⟩
                  · intro x hx
                    injection hx with hx
                    subst hx
                    exact ⟨para_block_wf htt hbl hnlt, Or.inl rfl⟩
                  · intro x hx
                    rcases List.mem_singleton.mp hx with rfl
                    exact hbw

theorem runLines_wf :
    ∀ (lines : List (List Char)) (st : AsmSt),
      (∀ l ∈ lines, '\n' ∉ l) → stWf st = true →
      ∀ b ∈ runLines st lines, blockWf b = true := by
  intro lines
  induction lines with
  | nil =>
    intro st hl hw b hb
    unfold runLines at hb
    obtain ⟨hcur, _⟩ := stWf_parts hw
    cases hc : st.cur with
    | none => rw [hc] at hb; cases hb
    | some x =>
      rw [hc] at hb
      have := List.mem_singleton.mp hb
      subst this
      exact (hcur b hc).1
  | cons l rest ih =>
    intro st hl hw b hb
    unfold runLines at hb
    obtain ⟨hst, hout⟩ := stepLine_wf rest.head?
      (hl l (List.mem_cons_self l rest)) hw
    rcases List.mem_append.mp hb with hb | hb
    · exact hout b hb
    · exact ih _ (fun x hx => hl x (List.mem_cons_of_mem l hx)) hst b hb

theorem analyze_wf (text : List Char) :
    ∀ b ∈ analyzeTextStructure text, blockWf b = true :=
  runLines_wf (splitNl text) initSt (mem_splitNl_no_nl text) rfl

end Markify

namespace Markify

/-! ## Renderer structure -/

/-- The markdown string a single block contributes, for blocks whose
list metadata is well-formed (the fold state then always agrees with
the block's own list kind). -/
def pieceStr (b : Block) : List Char :=
  match b.type with
  | .heading => hashes (levelOrOne b.level) ++ ' ' :: b.content ++ ['\n', '\n']
  | .paragraph => b.content ++ ['\n', '\n']
  | .list =>
    (match b.listType, b.listIndex with
     | some .numbered, some (n + 1) => natChars (n + 1) ++ ['.', ' ']
     | _, _ => ['-', ' ']) ++ b.content ++ ['\n']
  | .code =>
    '`' :: '`' :: '`' :: '\n' :: b.content ++ ['`', '`', '`', '\n', '\n']
  | .quote => '>' :: ' ' :: b.content ++ ['\n', '\n']

def renderSeq : List Block → List Char
  | [] => []
  | b :: bs => pieceStr b ++ renderSeq bs

theorem bmGo_flat :
    ∀ (B : List Block) (lt : Option ListKind) (ls : Bool),
      (∀ b ∈ B, b.type = .list → b.listType ≠ none) →
      bmGo lt ls B = renderSeq B := by
  intro B
  induction B with
  | nil => intro lt ls _; rfl
  | cons b bs ih =>
    intro lt ls hB
    unfold bmGo renderSeq pieceStr
    cases htype : b.type with
    | heading =>
      simp only
      rw [ih _ _ (fun x hx h => hB x (List.mem_cons_of_mem b hx) h)]
    | paragraph =>
      simp only
      rw [ih _ _ (fun x hx h => hB x (List.mem_cons_of_mem b hx) h)]
    | code =>
      simp only
      rw [ih _ _ (fun x hx h => hB x (List.mem_cons_of_mem b hx) h)]
    | quote =>
      simp only
      rw [ih _ _ (fun x hx h => hB x (List.mem_cons_of_mem b hx) h)]
    | list =>
      have hlt : b.listType ≠ none := hB b (List.mem_cons_self b bs) htype
      have hlt' :
          (if ¬ ls ∨ lt ≠ b.listType then some (b.listType.getD .bullet)
           else lt) = b.listType := by
        cases hk : b.listType with
        | none => exact absurd hk hlt
        | some k =>
          split
          · simp
          · next hcond =>
            rw [not_or] at hcond
            exact not_not.mp hcond.2
      simp only
      rw [hlt']
      rw [ih _ _ (fun x hx h => hB x (List.mem_cons_of_mem b hx) h)]

end Markify

namespace Markify

/-! ## Character absence through the pipeline (for C9) -/

theorem mem_of_fence_leading {t : List Char}
    (h : ['`', '`', '`'].isPrefixOf t = true) : '`' ∈ t := by
  rw [List.isPrefixOf_iff_prefix] at h
  exact h.subset (List.mem_cons_self '`' _)

theorem fence_false_of_not_bq {raw : List Char} (h : '`' ∉ raw) :
    ['`', '`', '`'].isPrefixOf (trimChars raw) = false := by
  rw [← Bool.not_eq_true]
  intro hp
  exact h (mem_trimChars_sub (mem_of_fence_leading hp))

theorem headD_indep {l : List Char} (h : l ≠ []) (d d' : Char) :
    l.headD d = l.headD d' := by
  cases l with
  | nil => exact absurd rfl h
  | cons a as => rfl

/-- Character-absence invariant for the assembler: if a character `x`
(not space or newline) never occurs in the input lines, and backticks
never occur (so code mode is never entered), then `x` never occurs in
any emitted block content and no code block is emitted. -/
theorem stepLine_nox {x : Char} {st : AsmSt} {raw : List Char}
    (n : Option (List Char)) (hx1 : x ≠ ' ') (hx2 : x ≠ '\n')
    (hxr : x ∉ raw) (hbq : '`' ∉ raw) (hnl : '\n' ∉ raw)
    (hic : st.inCode = false) (hok : stateOK st = true)
    (hcur : ∀ b, st.cur = some b → x ∉ b.content) :
    ((stepLine st raw n).1.inCode = false ∧
     ∀ b, (stepLine st raw n).1.cur = some b → x ∉ b.content) ∧
    ∀ b ∈ (stepLine st raw n).2, b.type ≠ .code ∧ x ∉ b.content := by
  obtain ⟨cur, ic, acc⟩ := st
  simp only at hic hcur
  subst hic
  have hf := fence_false_of_not_bq hbq
  have hxt : x ∉ trimChars raw := fun hm => hxr (mem_trimChars_sub hm)
  have hnlt : '\n' ∉ trimChars raw := fun hm => hnl (mem_trimChars_sub hm)
  have htt := trimChars_idem raw
  have hokc : ∀ b, cur = some b →
      b.type = .paragraph ∨ b.type = .quote := by
    intro b hb
    unfold stateOK at hok
    simp only at hok
    rw [hb] at hok
    simp only [Bool.or_eq_true, beq_iff_eq] at hok
    exact hok
  by_cases hbl : trimChars raw = []
  · cases cur with
    | none =>
      rw [stepLine_blank_none hbl]
      exact ⟨⟨rfl, hcur⟩, by simp⟩
    | some b =>
      have hbt : b.type ≠ .list := by
        rcases hokc b rfl with h | h <;> simp [h]
      rw [stepLine_blank_flush hbl hbt]
      refine ⟨⟨rfl, by intro b hb; cases hb⟩, ?_⟩
      intro y hy
      rcases List.mem_singleton.mp hy with rfl
      refine ⟨?_, hcur y rfl⟩
      rcases hokc y rfl with h | h <;> simp [h]
  · have hbe : (trimChars raw).isEmpty = false := by
      cases h : trimChars raw with
      | nil => exact absurd h hbl
      | cons a as => rfl
    have hqsub : x ∉ quoteStrip (trimChars raw) :=
      fun hm => hxt ((quoteStrip_suffix _).subset hm)
    by_cases hq : (trimChars raw).headD 'x' = '>'
    · cases cur with
      | none =>
        rw [stepLine_quote_none hf hbe hq]
        refine ⟨⟨rfl, ?_⟩, by simp⟩
        intro b hb
        injection hb with hb
        subst hb
        exact hqsub
      | some b =>
        by_cases hqt : b.type = .quote
        · rw [stepLine_quote_append hf hbe hq hqt]
          refine ⟨⟨rfl, ?_⟩, by simp⟩
          intro y hy
          injection hy with hy
          subst hy
          show x ∉ b.content ++ '\n' :: quoteStrip (trimChars raw)
          intro hm
          rcases List.mem_append.mp hm with hm | hm
          · exact hcur b rfl hm
          · rcases List.mem_cons.mp hm with rfl | hm
            · exact hx2 rfl
            · exact hqsub hm
        · rw [stepLine_quote_flush hf hbe hq hqt]
          refine ⟨⟨rfl, ?_⟩, ?_⟩
          · intro y hy
            injection hy with hy
            subst hy
            exact hqsub
          · intro y hy
            rcases List.mem_singleton.mp hy with rfl
            refine ⟨?_, hcur y rfl⟩
            rcases hokc y rfl with h | h <;> simp [h]
    · cases hd : detectListType raw with
      | some lm =>
        have hlmx : x ∉ trimChars lm.stripped := fun hm =>
          hxr (detect_stripped_sub hd _ (mem_trimChars_sub hm))
        cases cur with
        | none =>
          rw [stepLine_list_none hf hbe hq hd]
          refine ⟨⟨rfl, by intro b hb; cases hb⟩, ?_⟩
          intro y hy
          rcases List.mem_singleton.mp hy with rfl
          exact ⟨by simp [listBlockOf], hlmx⟩
        | some b =>
          have hbt : b.type ≠ .list := by
            rcases hokc b rfl with h | h <;> simp [h]
          rw [stepLine_list_flush hf hbe hq hd hbt]
          refine ⟨⟨rfl, by intro y hy; cases hy⟩, ?_⟩
          intro y hy
          rcases List.mem_cons.mp hy with rfl | hy
          · refine ⟨?_, hcur y rfl⟩
            rcases hokc y rfl with h | h <;> simp [h]
          · rcases List.mem_singleton.mp hy with rfl
            exact ⟨by simp [listBlockOf], hlmx⟩
      | none =>
        by_cases hh : (analyzeHeading (trimChars raw) n).isHeading = true
        · obtain ⟨hr, _, _, hsub⟩ := analyzeHeading_wf n htt hbl hnlt hh
          have hhx : x ∉ (analyzeHeading (trimChars raw) n).headingText :=
            fun hm => hxt (hsub x hm)
          cases cur with
          | none =>
            rw [stepLine_heading_none hf hbe hq hd hh hr]
            refine ⟨⟨rfl, by intro y hy; cases hy⟩, ?_⟩
            intro y hy
            rcases List.mem_singleton.mp hy with rfl
            exact ⟨by simp [headBlockOf], hhx⟩
          | some b =>
            rw [stepLine_heading_flush hf hbe hq hd hh hr]
            refine ⟨⟨rfl, by intro y hy; cases hy⟩, ?_⟩
            intro y hy
            rcases List.mem_cons.mp hy with rfl | hy
            · refine ⟨?_, hcur y rfl⟩
              rcases hokc y rfl with h | h <;> simp [h]
            · rcases List.mem_singleton.mp hy with rfl
              exact ⟨by simp [headBlockOf], hhx⟩
        · rw [Bool.not_eq_true] at hh
          cases cur with
          | none =>
            rw [stepLine_plain_none hf hbe hq hd hh]
            refine ⟨⟨rfl, ?_⟩, by simp⟩
            intro y hy
            injection hy with hy
            subst hy
            exact hxt
          | some b =>
            by_cases hpt : b.type = .paragraph
            · rw [stepLine_plain_append hf hbe hq hd hh hpt]
              refine ⟨⟨rfl, ?_⟩, by simp⟩
              intro y hy
              injection hy with hy
              subst hy
              show x ∉ b.content ++ ' ' :: trimChars raw
              intro hm
              rcases List.mem_append.mp hm with hm | hm
              · exact hcur b rfl hm
              · rcases List.mem_cons.mp hm with rfl | hm
                · exact hx1 rfl
                · exact hxt hm
            · rw [stepLine_plain_flush hf hbe hq hd hh hpt]
              refine ⟨⟨rfl, ?_⟩, ?_⟩
              · intro y hy
                injection hy with hy
                subst hy
                exact hxt
              · intro y hy
                rcases List.mem_singleton.mp hy with rfl
                refine ⟨?_, hcur y rfl⟩
                rcases hokc y rfl with h | h <;> simp [h]

end Markify
namespace Markify

theorem runLines_nox {x : Char} (hx1 : x ≠ ' ') (hx2 : x ≠ '\n') :
    ∀ (lines : List (List Char)) (st : AsmSt),
      (∀ l ∈ lines, x ∉ l ∧ '`' ∉ l ∧ '\n' ∉ l) →
      st.inCode = false → stateOK st = true →
      (∀ b, st.cur = some b → x ∉ b.content) →
      ∀ b ∈ runLines st lines, b.type ≠ .code ∧ x ∉ b.content := by
  intro lines
  induction lines with
  | nil =>
    intro st hl hic hok hcur b hb
    unfold runLines at hb
    cases hc : st.cur with
    | none => rw [hc] at hb; cases hb
    | some y =>
      rw [hc] at hb
      have := List.mem_singleton.mp hb
      subst this
      refine ⟨?_, hcur b hc⟩
      unfold stateOK at hok
      rw [hc] at hok
      simp only [Bool.or_eq_true, beq_iff_eq] at hok
      rcases hok with h | h <;> simp [h]
  | cons l rest ih =>
    intro st hl hic hok hcur b hb
    unfold runLines at hb
    obtain ⟨h1, h2, h3⟩ := hl l (List.mem_cons_self l rest)
    obtain ⟨⟨hic', hcur'⟩, hout⟩ :=
      stepLine_nox rest.head? hx1 hx2 h1 h2 h3 hic hok hcur
    rcases List.mem_append.mp hb with hb | hb
    · exact hout b hb
    · exact ih _ (fun y hy => hl y (List.mem_cons_of_mem l hy)) hic'
        (stepLine_ok st l rest.head? hok) hcur' b hb

theorem analyze_nox {x : Char} (hx1 : x ≠ ' ') (hx2 : x ≠ '\n')
    {text : List Char} (hxt : x ∉ text) (hbq : '`' ∉ text) :
    ∀ b ∈ analyzeTextStructure text, b.type ≠ .code ∧ x ∉ b.content := by
  apply runLines_nox hx1 hx2 (splitNl text) initSt
  · intro l hlm
    exact ⟨fun hm => hxt (mem_splitNl_sub text l hlm x hm),
      fun hm => hbq (mem_splitNl_sub text l hlm '`' hm),
      mem_splitNl_no_nl text l hlm⟩
  · rfl
  · rfl
  · intro b hb
    cases hb

/-! ## A heading line in the input yields a heading block (for C9) -/

theorem atxMatch_some_head {t : List Char} {pr : Nat × List Char}
    (h : atxMatch t = some pr) : t ≠ [] ∧ t.headD 'x' = '#' := by
  simp only [atxMatch] at h
  split at h
  · next c rest heq =>
    split at h
    · next hcond =>
      cases t with
      | nil => simp at heq
      | cons a as =>
        refine ⟨by simp, ?_⟩
        simp only [List.headD_cons]
        by_contra ha
        rw [List.takeWhile_cons] at hcond heq
        simp only [decide_eq_true_eq] at hcond heq
        rw [if_neg ha] at hcond
        simp at hcond
    · cases h
  · cases h

theorem analyzeHeading_atx {t m2 : List Char} {k : Nat}
    (n : Option (List Char)) (h : atxMatch t = some (k, m2)) :
    analyzeHeading t n = ⟨true, trimChars m2, [], some k⟩ := by
  unfold analyzeHeading
  rw [h]

theorem stepLine_inCode {st : AsmSt} {raw : List Char}
    {n : Option (List Char)}
    (hf : ['`', '`', '`'].isPrefixOf (trimChars raw) = false)
    (hic : st.inCode = false) : (stepLine st raw n).1.inCode = false := by
  obtain ⟨cur, ic, acc⟩ := st
  simp only at hic
  subst hic
  unfold stepLine
  simp only [hf]
  repeat' split
  all_goals rfl

theorem runLines_heading :
    ∀ (lines : List (List Char)) (st : AsmSt),
      (∀ l ∈ lines, '`' ∉ l) → st.inCode = false →
      (∃ l ∈ lines, (atxMatch (trimChars l)).isSome = true) →
      ∃ b ∈ runLines st lines, b.type = .heading := by
  intro lines
  induction lines with
  | nil =>
    intro st _ _ hex
    simp at hex
  | cons l rest ih =>
    intro st hl hic hex
    have hbq : '`' ∉ l := hl l (List.mem_cons_self l rest)
    have hf := fence_false_of_not_bq hbq
    by_cases hatx : (atxMatch (trimChars l)).isSome = true
    · rw [Option.isSome_iff_exists] at hatx
      obtain ⟨⟨k, m2⟩, hsome⟩ := hatx
      obtain ⟨htne, hthead⟩ := atxMatch_some_head hsome
      have hbe : (trimChars l).isEmpty = false := by
        cases h : trimChars l with
        | nil => exact absurd h htne
        | cons a as => rfl
      have hq : ¬ (trimChars l).headD 'x' = '>' := by
        rw [hthead]; decide
      have hdw : ((l.dropWhile jsWs).headD '#') = '#' := by
        rw [← prefix_headD (dropTrailWs_leading (l.dropWhile jsWs)) htne]
        rw [← trimChars]
        rw [headD_indep htne '#' 'x']
        exact hthead
      have hd : detectListType l = none := by
        apply detectListType_none_head <;> rw [hdw] <;> decide
      have hha := analyzeHeading_atx rest.head? hsome
      have hh : (analyzeHeading (trimChars l) rest.head?).isHeading = true := by
        rw [hha]
      have hr : (analyzeHeading (trimChars l) rest.head?).remaining = [] := by
        rw [hha]
      unfold runLines
      cases hc : st.cur with
      | none =>
        have hst : st = ⟨none, false, st.accum⟩ := by
          obtain ⟨c, i, a⟩ := st
          simp only at hc hic
          rw [hc, hic]
        rw [hst, stepLine_heading_none hf hbe hq hd hh hr]
        exact ⟨headBlockOf (trimChars l) rest.head?, by simp, rfl⟩
      | some b =>
        have hst : st = ⟨some b, false, st.accum⟩ := by
          obtain ⟨c, i, a⟩ := st
          simp only at hc hic
          rw [hc, hic]
        rw [hst, stepLine_heading_flush hf hbe hq hd hh hr]
        exact ⟨headBlockOf (trimChars l) rest.head?, by simp, rfl⟩
    · have hex' : ∃ y ∈ rest, (atxMatch (trimChars y)).isSome = true := by
        rcases hex with ⟨y, hy, hysome⟩
        rcases List.mem_cons.mp hy with rfl | hy
        · exact absurd hysome hatx
        · exact ⟨y, hy, hysome⟩
      obtain ⟨b, hb, hbt⟩ := ih (stepLine st l rest.head?).1
        (fun y hy => hl y (List.mem_cons_of_mem l hy))
        (stepLine_inCode hf hic) hex'
      refine ⟨b, ?_, hbt⟩
      unfold runLines
      exact List.mem_append.mpr (Or.inr hb)

end Markify

namespace Markify

/-! ## Locating the heading line in the rendered output -/

theorem dropTrailWs_append (u v : List Char) :
    dropTrailWs (u ++ v) =
      if dropTrailWs v = [] then dropTrailWs u else u ++ dropTrailWs v := by
  unfold dropTrailWs
  rw [List.reverse_append, List.dropWhile_append]
  split
  · next h =>
    rw [List.isEmpty_iff] at h
    rw [h]
    simp
  · next h =>
    rw [List.isEmpty_iff] at h
    rw [if_neg (by simpa using h)]
    rw [List.reverse_append, List.reverse_reverse]

theorem dropTrailWs_cons_head {a : Char} {l : List Char}
    (h : dropTrailWs (a :: l) ≠ []) :
    ∃ s, dropTrailWs (a :: l) = a :: s := by
  obtain ⟨w, hw⟩ := dropTrailWs_leading (a :: l)
  cases hd : dropTrailWs (a :: l) with
  | nil => exact absurd hd h
  | cons b bs =>
    rw [hd] at hw
    injection hw with h1 h2
    exact ⟨bs, by rw [h1]⟩

theorem renderSeq_append (B C : List Block) :
    renderSeq (B ++ C) = renderSeq B ++ renderSeq C := by
  induction B with
  | nil => rfl
  | cons b bs ih => simp [renderSeq, ih]

theorem pieceStr_getLastD (b : Block) : (pieceStr b).getLastD 'x' = '\n' := by
  unfold pieceStr
  cases b.type <;>
    simp only <;>
    rw [getLastD_append_right (by simp)] <;> rfl

theorem pieceStr_ne_nil (b : Block) : pieceStr b ≠ [] := by
  unfold pieceStr
  cases b.type <;> simp

theorem renderSeq_getLastD {B : List Block} (h : B ≠ []) :
    (renderSeq B).getLastD 'x' = '\n' := by
  induction B with
  | nil => exact absurd rfl h
  | cons b bs ih =>
    show (pieceStr b ++ renderSeq bs).getLastD 'x' = '\n'
    cases hbs : bs with
    | nil =>
      simp only [renderSeq, List.append_nil]
      exact pieceStr_getLastD b
    | cons c cs =>
      subst hbs
      rw [getLastD_append_right]
      · exact ih (by simp)
      · show pieceStr c ++ renderSeq cs ≠ []
        intro hx
        exact pieceStr_ne_nil c (List.append_eq_nil.mp hx).1

theorem renderSeq_ends_nl {B : List Block} (h : B ≠ []) :
    ∃ A', renderSeq B = A' ++ ['\n'] := by
  have h1 := renderSeq_getLastD h
  have h2 : renderSeq B ≠ [] := by
    cases B with
    | nil => exact absurd rfl h
    | cons b bs =>
      show pieceStr b ++ renderSeq bs ≠ []
      intro hx
      exact pieceStr_ne_nil b (List.append_eq_nil.mp hx).1
  refine ⟨(renderSeq B).dropLast, ?_⟩
  conv_lhs => rw [← List.dropLast_append_getLast h2]
  congr 1
  rw [List.getLastD_eq_getLast? 'x', List.getLast?_eq_getLast _ h2] at h1
  simp only [Option.getD_some] at h1
  rw [h1]

theorem levelOrOne_pos (o : Option Nat) : 1 ≤ levelOrOne o := by
  unfold levelOrOne
  split <;> omega

theorem levelOrOne_some {l : Nat} (h : 1 ≤ l) : levelOrOne (some l) = l := by
  cases l with
  | zero => omega
  | succ n => rfl

theorem pieceStr_headD {b : Block} (hwf : blockWf b = true) :
    jsWs ((pieceStr b).headD 'x') = false := by
  unfold pieceStr
  cases hbt : b.type with
  | heading =>
    simp only
    have hp := levelOrOne_pos b.level
    cases hk : levelOrOne b.level with
    | zero => omega
    | succ n =>
      rw [hashes, List.replicate_succ]
      rfl
  | paragraph =>
    simp only
    unfold blockWf at hwf
    rw [hbt] at hwf
    obtain ⟨_, hne, _, hh, _⟩ := contentOK_parts hwf
    rw [← prefix_headD (List.prefix_append b.content _) hne]
    exact hh
  | list =>
    simp only
    unfold blockWf at hwf
    rw [hbt] at hwf
    simp only [Bool.and_eq_true, Bool.or_eq_true, beq_iff_eq] at hwf
    rcases hwf.2 with ⟨hlt, hli⟩ | ⟨hlt, hli⟩
    · rw [hlt, hli]
      rfl
    · rw [hlt, hli]
      rfl
  | code => rfl
  | quote => rfl

theorem renderSeq_headD {B : List Block} (hwf : ∀ b ∈ B, blockWf b = true)
    (hne : B ≠ []) : jsWs ((renderSeq B).headD 'x') = false := by
  cases B with
  | nil => exact absurd rfl hne
  | cons b bs =>
    show jsWs ((pieceStr b ++ renderSeq bs).headD 'x') = false
    rw [← prefix_headD (List.prefix_append (pieceStr b) _) (pieceStr_ne_nil b)]
    exact pieceStr_headD (hwf b (List.mem_cons_self b bs))

theorem atxLineTest_rendered {lv : Nat} {c : List Char} (h1 : 1 ≤ lv)
    (h6 : lv ≤ 6) (hcne : c ≠ []) (hnl : '\n' ∉ c) :
    atxLineTest (hashes lv ++ ' ' :: c) = true := by
  unfold atxLineTest hashes
  rw [takeWhile_hashes lv (' ' :: c) (by simp only [List.headD_cons]; decide)]
  simp only [List.length_replicate]
  rw [List.drop_left' (by simp)]
  cases c with
  | nil => exact absurd rfl hcne
  | cons c0 cs =>
    have hc0 : c0 ≠ '\n' := fun h => hnl (h ▸ List.mem_cons_self c0 cs)
    simp [h1, h6, hc0]

theorem mem_splitNl_append_last {A HL : List Char}
    (hA : A = [] ∨ ∃ A2, A = A2 ++ ['\n']) (hHL : '\n' ∉ HL) :
    HL ∈ splitNl (A ++ HL) := by
  rcases hA with rfl | ⟨A2, rfl⟩
  · rw [List.nil_append, splitNl_no_nl _ hHL]
    exact List.mem_singleton.mpr rfl
  · rw [List.append_assoc, List.singleton_append, splitNl_append,
      splitNl_no_nl _ hHL]
    exact List.mem_append.mpr (Or.inr (List.mem_singleton.mpr rfl))


theorem renderSeq_ne_nil {B : List Block} (h : B ≠ []) : renderSeq B ≠ [] := by
  cases B with
  | nil => exact absurd rfl h
  | cons b bs =>
    show pieceStr b ++ renderSeq bs ≠ []
    intro hx
    exact pieceStr_ne_nil b (List.append_eq_nil.mp hx).1

theorem heading_line_rendered {B : List Block}
    (hwf : ∀ b ∈ B, blockWf b = true) (hex : ∃ b ∈ B, b.type = .heading) :
    ∃ hl ∈ splitNl (trimChars (renderSeq B)), atxLineTest hl = true := by
  obtain ⟨hb, hmem, hht⟩ := hex
  obtain ⟨B1, B2, hB⟩ := List.append_of_mem hmem
  subst hB
  have hbwf := hwf hb hmem
  unfold blockWf at hbwf
  rw [hht, Bool.and_eq_true] at hbwf
  obtain ⟨hcOK, hlvl⟩ := hbwf
  obtain ⟨hc1, hcne, hcnl, hch, hcl⟩ := contentOK_parts hcOK
  cases hlv : hb.level with
  | none =>
    rw [hlv] at hlvl
    cases hlvl
  | some lv =>
    rw [hlv, Bool.and_eq_true, decide_eq_true_eq, decide_eq_true_eq] at hlvl
    obtain ⟨h1, h6⟩ := hlvl
    set HL : List Char := hashes lv ++ ' ' :: hb.content with hHL
    have hHLne : HL ≠ [] := by
      intro h
      exact absurd (List.append_eq_nil.mp h).2 (by simp)
    have hHLnl : '\n' ∉ HL := by
      intro h
      rcases List.mem_append.mp h with h | h
      · exact absurd (List.eq_of_mem_replicate h) (by decide)
      · rcases List.mem_cons.mp h with h | h
        · exact absurd h (by decide)
        · exact hcnl h
    have hHLlast : jsWs (HL.getLastD 'x') = false := by
      rw [hHL, getLastD_append_right (by simp : (' ' :: hb.content : List Char) ≠ []),
        List.getLastD_cons, getLastD_indep hcne ' ' 'x']
      exact hcl
    have hatx : atxLineTest HL = true := atxLineTest_rendered h1 h6 hcne hcnl
    have hpiece : pieceStr hb = HL ++ ['\n', '\n'] := by
      simp only [pieceStr, hht]
      rw [hlv, levelOrOne_some h1, hHL]
    have hfull : renderSeq (B1 ++ hb :: B2) =
        (renderSeq B1 ++ HL) ++ '\n' :: '\n' :: renderSeq B2 := by
      rw [renderSeq_append]
      show renderSeq B1 ++ (pieceStr hb ++ renderSeq B2) = _
      rw [hpiece]
      simp [List.append_assoc]
    have hhead : jsWs ((renderSeq (B1 ++ hb :: B2)).headD 'x') = false :=
      renderSeq_headD hwf (by simp)
    have htrim : trimChars (renderSeq (B1 ++ hb :: B2)) =
        dropTrailWs (renderSeq (B1 ++ hb :: B2)) := by
      unfold trimChars
      rw [dropWhile_self_of_headD hhead]
    have hA : renderSeq B1 = [] ∨ ∃ A2, renderSeq B1 = A2 ++ ['\n'] := by
      cases hB1 : B1 with
      | nil => exact Or.inl rfl
      | cons c cs => exact Or.inr (renderSeq_ends_nl (by simp))
    have hlastAHL : jsWs ((renderSeq B1 ++ HL).getLastD 'x') = false := by
      rw [getLastD_append_right hHLne]
      exact hHLlast
    rw [htrim, hfull, dropTrailWs_append]
    by_cases hdt : dropTrailWs ('\n' :: '\n' :: renderSeq B2) = []
    · rw [if_pos hdt, dropTrailWs_eq_self hlastAHL]
      exact ⟨HL, mem_splitNl_append_last hA hHLnl, hatx⟩
    · rw [if_neg hdt]
      obtain ⟨s, hs⟩ := dropTrailWs_cons_head hdt
      rw [hs, splitNl_append]
      exact ⟨HL,
        List.mem_append.mpr (Or.inl (mem_splitNl_append_last hA hHLnl)), hatx⟩

theorem pieceStr_list_bullet {b : Block} (hbt : b.type = .list)
    (hlt : b.listType = some .bullet) (hli : b.listIndex = none) :
    pieceStr b = '-' :: ' ' :: (b.content ++ ['\n']) := by
  simp only [pieceStr, hbt, hlt, hli]
  rfl

theorem pieceStr_list_numbered {b : Block} (hbt : b.type = .list)
    (hlt : b.listType = some .numbered) (hli : b.listIndex = some 1) :
    pieceStr b = '1' :: '.' :: ' ' :: (b.content ++ ['\n']) := by
  simp only [pieceStr, hbt, hlt, hli]
  rfl

theorem pieceStr_nox {x : Char} {b : Block} (hwf : blockWf b = true)
    (hnc : b.type ≠ .code) (hxc : x ∉ b.content)
    (hx : x ∉ ['#', ' ', '\n', '-', '.', '>', '1']) : x ∉ pieceStr b := by
  simp only [List.mem_cons, List.not_mem_nil, or_false, not_or] at hx
  obtain ⟨hx1, hx2, hx3, hx4, hx5, hx6, hx7⟩ := hx
  intro h
  cases hbt : b.type with
  | heading =>
    simp only [pieceStr, hbt, hashes] at h
    rcases List.mem_append.mp h with h | h
    · rcases List.mem_append.mp h with h | h
      · exact hx1 (List.eq_of_mem_replicate h)
      · rcases List.mem_cons.mp h with h | h
        · exact hx2 h
        · exact hxc h
    · rcases List.mem_cons.mp h with h | h
      · exact hx3 h
      · rcases List.mem_cons.mp h with h | h
        · exact hx3 h
        · cases h
  | paragraph =>
    simp only [pieceStr, hbt] at h
    rcases List.mem_append.mp h with h | h
    · exact hxc h
    · rcases List.mem_cons.mp h with h | h
      · exact hx3 h
      · rcases List.mem_cons.mp h with h | h
        · exact hx3 h
        · cases h
  | list =>
    unfold blockWf at hwf
    rw [hbt] at hwf
    simp only [Bool.and_eq_true, Bool.or_eq_true, beq_iff_eq] at hwf
    rcases hwf.2 with ⟨hlt, hli⟩ | ⟨hlt, hli⟩
    · rw [pieceStr_list_bullet hbt hlt hli] at h
      rcases List.mem_cons.mp h with h | h
      · exact hx4 h
      · rcases List.mem_cons.mp h with h | h
        · exact hx2 h
        · rcases List.mem_append.mp h with h | h
          · exact hxc h
          · rcases List.mem_cons.mp h with h | h
            · exact hx3 h
            · cases h
    · rw [pieceStr_list_numbered hbt hlt hli] at h
      rcases List.mem_cons.mp h with h | h
      · exact hx7 h
      · rcases List.mem_cons.mp h with h | h
        · exact hx5 h
        · rcases List.mem_cons.mp h with h | h
          · exact hx2 h
          · rcases List.mem_append.mp h with h | h
            · exact hxc h
            · rcases List.mem_cons.mp h with h | h
              · exact hx3 h
              · cases h
  | code => exact absurd hbt hnc
  | quote =>
    simp only [pieceStr, hbt] at h
    rcases List.mem_cons.mp h with h | h
    · exact hx6 h
    · rcases List.mem_cons.mp h with h | h
      · exact hx2 h
      · rcases List.mem_append.mp h with h | h
        · exact hxc h
        · rcases List.mem_cons.mp h with h | h
          · exact hx3 h
          · rcases List.mem_cons.mp h with h | h
            · exact hx3 h
            · cases h

theorem renderSeq_nox {x : Char} {B : List Block}
    (hwf : ∀ b ∈ B, blockWf b = true)
    (hnc : ∀ b ∈ B, b.type ≠ .code ∧ x ∉ b.content)
    (hx : x ∉ ['#', ' ', '\n', '-', '.', '>', '1']) : x ∉ renderSeq B := by
  induction B with
  | nil => simp [renderSeq]
  | cons b bs ih =>
    show x ∉ pieceStr b ++ renderSeq bs
    intro h
    rcases List.mem_append.mp h with h | h
    · exact pieceStr_nox (hwf b (List.mem_cons_self b bs))
        (hnc b (List.mem_cons_self b bs)).1
        (hnc b (List.mem_cons_self b bs)).2 hx h
    · exact ih (fun c hc => hwf c (List.mem_cons_of_mem b hc))
        (fun c hc => hnc c (List.mem_cons_of_mem b hc)) h

theorem countTriples_eq_zero {l : List Char} (h : '`' ∉ l) :
    countTriples l = 0 := by
  induction l with
  | nil => rfl
  | cons c1 t ih =>
    cases t with
    | nil => rfl
    | cons c2 t2 =>
      cases t2 with
      | nil => rfl
      | cons c3 r =>
        have hc1 : c1 ≠ '`' :=
          fun hb => h (hb ▸ List.mem_cons_self c1 (c2 :: c3 :: r))
        unfold countTriples
        rw [if_neg (fun hcond => hc1 hcond.1)]
        exact ih fun hm => h (List.mem_cons_of_mem c1 hm)

theorem blockWf_list_lt {b : Block} (hwf : blockWf b = true)
    (hbt : b.type = .list) : b.listType ≠ none := by
  unfold blockWf at hwf
  rw [hbt] at hwf
  simp only [Bool.and_eq_true, Bool.or_eq_true, beq_iff_eq] at hwf
  rcases hwf.2 with ⟨hlt, _⟩ | ⟨hlt, _⟩ <;> rw [hlt] <;> simp

/-- C9 (corrected): the original claim — any text with an ATX heading line
and an even count of asterisks and of fences validates after transform — is
refuted by `C9_balanced_counterexample`.  The amended claim proved here: if
the text contains an ATX heading line and contains no asterisk and no
backtick at all, then `validateMarkdown (transform text) = true`. -/
theorem C9_atx_no_marker_chars_validates {text : List Char}
    (hatx : hasAtxLine text = true) (hstar : '*' ∉ text)
    (hbq : '`' ∉ text) :
    validateMarkdown (transform text) = true := by
  have hwf : ∀ b ∈ analyzeTextStructure text, blockWf b = true :=
    analyze_wf text
  have hnox1 : ∀ b ∈ analyzeTextStructure text,
      b.type ≠ .code ∧ '*' ∉ b.content :=
    analyze_nox (by decide) (by decide) hstar hbq
  have hnox2 : ∀ b ∈ analyzeTextStructure text,
      b.type ≠ .code ∧ '`' ∉ b.content :=
    analyze_nox (by decide) (by decide) hbq hbq
  have hhead : ∃ b ∈ analyzeTextStructure text, b.type = .heading := by
    apply runLines_heading (splitNl text) initSt
    · intro l hl hm
      exact hbq (mem_splitNl_sub text l hl '`' hm)
    · rfl
    · unfold hasAtxLine at hatx
      rw [List.any_eq_true] at hatx
      exact hatx
  have hmd : transform text = trimChars (renderSeq (analyzeTextStructure text)) := by
    unfold transform blocksToMarkdown
    rw [bmGo_flat (analyzeTextStructure text) none false
      (fun b hb hl => blockWf_list_lt (hwf b hb) hl)]
  have hstar_md : '*' ∉ transform text := by
    rw [hmd]
    intro hm
    exact renderSeq_nox hwf hnox1 (by decide) (mem_trimChars_sub hm)
  have hbq_md : '`' ∉ transform text := by
    rw [hmd]
    intro hm
    exact renderSeq_nox hwf hnox2 (by decide) (mem_trimChars_sub hm)
  have hline : ∃ hl ∈ splitNl (transform text), atxLineTest hl = true := by
    rw [hmd]
    exact heading_line_rendered hwf hhead
  obtain ⟨hl, hlm, hta⟩ := hline
  have h1 : (splitNl (transform text)).any atxLineTest = true :=
    List.any_eq_true.mpr ⟨hl, hlm, hta⟩
  have h2 : (transform text).count '*' = 0 := List.count_eq_zero.mpr hstar_md
  have h3 : countTriples (transform text) = 0 := countTriples_eq_zero hbq_md
  simp [validateMarkdown, h1, h2, h3]

/-- Witness for C9: the concrete text `"# Title\nhello"` satisfies the
hypotheses, and its transform validates. -/
theorem C9_atx_no_marker_chars_validates_witness :
    hasAtxLine ("# Title\nhello".data) = true ∧
    '*' ∉ ("# Title\nhello".data) ∧ '`' ∉ ("# Title\nhello".data) ∧
    validateMarkdown (transform ("# Title\nhello".data)) = true :=
  ⟨by decide, by decide, by decide,
    C9_atx_no_marker_chars_validates (by decide) (by decide) (by decide)⟩

end Markify

namespace Markify

/-! ## Reparse analysis: rendered output fed back to the analyzer -/

/-- The lines a block's rendered core (without the trailing blank
separation) splits into. -/
def coreLines (b : Block) : List (List Char) :=
  match b.type with
  | .heading => [hashes (levelOrOne b.level) ++ ' ' :: b.content]
  | .paragraph => [b.content]
  | .quote => ['>' :: ' ' :: b.content]
  | .list =>
    match b.listType, b.listIndex with
    | some .numbered, some (n + 1) =>
      [natChars (n + 1) ++ '.' :: ' ' :: b.content]
    | _, _ => ['-' :: ' ' :: b.content]
  | .code =>
    ['`', '`', '`'] :: (splitNl b.content).dropLast ++ [['`', '`', '`']]

/-- The lines a block's full rendered piece contributes (the list piece
ends with a single newline, every other piece with a blank line). -/
def pieceLines (b : Block) : List (List Char) :=
  coreLines b ++ (match b.type with | .list => [] | _ => [[]])

/-- Goodness of a block for exact reparsing: canonical unset metadata
fields and content that re-triggers exactly the classifier rule that
produced the block. -/
def blockG (b : Block) : Bool :=
  match b.type with
  | .heading =>
    (b.content.headD 'x' != '#') && b.listType == none && b.listIndex == none
  | .paragraph =>
    (!(['`', '`', '`'].isPrefixOf b.content)) &&
    (b.content.headD 'x' != '>') &&
    (detectListType b.content) == none &&
    (atxMatch b.content) == none &&
    (metadataLevel b.content) == none &&
    (!(isTitleCase b.content && decide (b.content.length < 60))) &&
    b.level == none && b.listType == none && b.listIndex == none
  | .quote =>
    contentOK b.content && b.level == none && b.listType == none &&
    b.listIndex == none
  | .list => (!b.content.isEmpty) && b.level == none
  | .code =>
    ((splitNl b.content).all
      (fun l => !(['`', '`', '`'].isPrefixOf (trimChars l)))) &&
    b.level == none && b.listType == none && b.listIndex == none

theorem isEmpty_false_of_ne {l : List Char} (h : l ≠ []) :
    l.isEmpty = false := by
  cases l with
  | nil => exact absurd rfl h
  | cons a as => rfl

theorem analyzeHeading_not_plain {t : List Char} {n : Option (List Char)}
    (hax : atxMatch t = none) (hml : metadataLevel t = none)
    (htc : ¬ (isTitleCase t = true ∧ t.length < 60))
    (hn : n = some [] ∨ n = none) :
    analyzeHeading t n = ⟨false, [], t, none⟩ := by
  have he : eqRun [] = false := by decide
  have hdd : dashRun [] = false := by decide
  rcases hn with rfl | rfl <;>
    simp [analyzeHeading, hax, he, hdd, hml, htc]

theorem step_heading {b : Block} (hwf : blockWf b = true)
    (hg : blockG b = true) (hbt : b.type = .heading)
    (n : Option (List Char)) :
    stepLine initSt (hashes (levelOrOne b.level) ++ ' ' :: b.content) n =
      (initSt, [b]) := by
  obtain ⟨bt, bc, blv, blt, bli⟩ := b
  simp only at hbt
  subst hbt
  unfold blockWf at hwf
  unfold blockG at hg
  simp only [Bool.and_eq_true, bne_iff_ne, beq_iff_eq] at hwf hg
  obtain ⟨hcOK, hlvl⟩ := hwf
  obtain ⟨⟨hgh, hglt⟩, hgli⟩ := hg
  subst hglt
  subst hgli
  obtain ⟨hc1, hcne, hcnl, hch, hcl⟩ := contentOK_parts hcOK
  simp only at hlvl hgh hch hcl hc1 ⊢
  cases hlv : blv with
  | none => rw [hlv] at hlvl; cases hlvl
  | some lv =>
    subst hlv
    rw [Bool.and_eq_true, decide_eq_true_eq, decide_eq_true_eq] at hlvl
    obtain ⟨h1, h6⟩ := hlvl
    rw [levelOrOne_some h1]
    have hlne : hashes lv ++ ' ' :: bc ≠ [] := by
      intro h
      exact absurd (List.append_eq_nil.mp h).2 (by simp)
    have hhead : (hashes lv ++ ' ' :: bc).headD 'x' = '#' := by
      rw [hashes]
      cases lv with
      | zero => omega
      | succ k => rw [List.replicate_succ]; rfl
    have hlast : jsWs ((hashes lv ++ ' ' :: bc).getLastD 'x') = false := by
      rw [getLastD_append_right (by simp : (' ' :: bc : List Char) ≠ []),
        List.getLastD_cons, getLastD_indep hcne ' ' 'x']
      exact hcl
    have htr : trimChars (hashes lv ++ ' ' :: bc) = hashes lv ++ ' ' :: bc :=
      trimChars_eq_self (by rw [hhead]; decide) hlast
    have hf : ['`', '`', '`'].isPrefixOf
        (trimChars (hashes lv ++ ' ' :: bc)) = false := by
      rw [htr]
      exact isPrefixOf_fence_false (by rw [hhead]; decide)
    have hbne : (trimChars (hashes lv ++ ' ' :: bc)).isEmpty = false := by
      rw [htr]
      exact isEmpty_false_of_ne hlne
    have hq2 : ¬ (trimChars (hashes lv ++ ' ' :: bc)).headD 'x' = '>' := by
      rw [htr, hhead]; decide
    have hdw : (hashes lv ++ ' ' :: bc).dropWhile jsWs =
        hashes lv ++ ' ' :: bc :=
      dropWhile_self_of_headD (by rw [hhead]; decide)
    have hd : detectListType (hashes lv ++ ' ' :: bc) = none := by
      apply detectListType_none_head <;>
        rw [hdw, headD_indep hlne '#' 'x', hhead] <;> decide
    have hatx : atxMatch (hashes lv ++ ' ' :: bc) = some (lv, bc) := by
      rw [hashes]
      exact atxMatch_rendered lv bc h1 h6
        (by rw [headD_indep hcne 'y' 'x']; exact hch)
        (by rw [headD_indep hcne 'y' 'x']; exact hgh)
    have hha := analyzeHeading_atx n ((htr.symm ▸ hatx) :
      atxMatch (trimChars (hashes lv ++ ' ' :: bc)) = some (lv, bc))
    have hh : (analyzeHeading (trimChars (hashes lv ++ ' ' :: bc)) n).isHeading
        = true := by rw [hha]
    have hr : (analyzeHeading (trimChars (hashes lv ++ ' ' :: bc)) n).remaining
        = [] := by rw [hha]
    show stepLine ⟨none, false, []⟩ _ n = _
    rw [stepLine_heading_none hf hbne hq2 hd hh hr]
    unfold headBlockOf
    rw [hha]
    simp only [initSt, Prod.mk.injEq, List.cons.injEq, and_true, true_and]
    rw [hc1]

theorem step_paragraph {b : Block} (hwf : blockWf b = true)
    (hg : blockG b = true) (hbt : b.type = .paragraph)
    {n : Option (List Char)} (hn : n = some [] ∨ n = none) :
    stepLine initSt b.content n = (⟨some b, false, []⟩, []) := by
  obtain ⟨bt, bc, blv, blt, bli⟩ := b
  simp only at hbt ⊢
  subst hbt
  unfold blockWf at hwf
  unfold blockG at hg
  simp only [Bool.and_eq_true, bne_iff_ne, beq_iff_eq,
    Bool.not_eq_true'] at hg
  obtain ⟨⟨⟨⟨⟨⟨⟨⟨hg1, hg2⟩, hg3⟩, hg4⟩, hg5⟩, hg6⟩, hg7⟩, hg8⟩, hg9⟩ := hg
  subst hg7
  subst hg8
  subst hg9
  obtain ⟨hc1, hcne, hcnl, hch, hcl⟩ := contentOK_parts hwf
  simp only at hc1 hch hcl hg1 hg2 hg3 hg4 hg5 hg6 ⊢
  have htc : ¬ (isTitleCase bc = true ∧ bc.length < 60) := by
    intro hpair
    rw [hpair.1] at hg6
    simp [hpair.2] at hg6
  have hf : ['`', '`', '`'].isPrefixOf (trimChars bc) = false := by
    rw [hc1]; exact hg1
  have hbne : (trimChars bc).isEmpty = false := by
    rw [hc1]; exact isEmpty_false_of_ne hcne
  have hq2 : ¬ (trimChars bc).headD 'x' = '>' := by
    rw [hc1]; exact hg2
  have hh : (analyzeHeading (trimChars bc) n).isHeading = false := by
    rw [hc1, analyzeHeading_not_plain hg4 hg5 htc hn]
  show stepLine ⟨none, false, []⟩ bc n = _
  rw [stepLine_plain_none hf hbne hq2 hg3 hh]
  rw [hc1]

theorem step_quote {b : Block} (hg : blockG b = true)
    (hbt : b.type = .quote) (n : Option (List Char)) :
    stepLine initSt ('>' :: ' ' :: b.content) n =
      (⟨some b, false, []⟩, []) := by
  obtain ⟨bt, bc, blv, blt, bli⟩ := b
  simp only at hbt ⊢
  subst hbt
  unfold blockG at hg
  simp only [Bool.and_eq_true, beq_iff_eq] at hg
  obtain ⟨⟨⟨hcOK, hg2⟩, hg3⟩, hg4⟩ := hg
  subst hg2
  subst hg3
  subst hg4
  obtain ⟨hc1, hcne, hcnl, hch, hcl⟩ := contentOK_parts hcOK
  have hlast : jsWs (('>' :: ' ' :: bc).getLastD 'x') = false := by
    rw [List.getLastD_cons, List.getLastD_cons, getLastD_indep hcne ' ' 'x']
    exact hcl
  have htr : trimChars ('>' :: ' ' :: bc) = '>' :: ' ' :: bc :=
    trimChars_eq_self (by rw [List.headD_cons]; decide) hlast
  have hf : ['`', '`', '`'].isPrefixOf (trimChars ('>' :: ' ' :: bc)) =
      false := by
    rw [htr]
    exact isPrefixOf_fence_false (by rw [List.headD_cons]; decide)
  have hbne : (trimChars ('>' :: ' ' :: bc)).isEmpty = false := by
    rw [htr]; rfl
  have hq : (trimChars ('>' :: ' ' :: bc)).headD 'x' = '>' := by
    rw [htr]; rfl
  show stepLine ⟨none, false, []⟩ _ n = _
  rw [stepLine_quote_none hf hbne hq, htr]
  rfl

theorem step_list_bullet {b : Block} (hwf : blockWf b = true)
    (hg : blockG b = true) (hbt : b.type = .list)
    (hlt : b.listType = some .bullet) (hli : b.listIndex = none)
    (n : Option (List Char)) :
    stepLine initSt ('-' :: ' ' :: b.content) n = (initSt, [b]) := by
  obtain ⟨bt, bc, blv, blt, bli⟩ := b
  simp only at hbt hlt hli ⊢
  subst hbt
  subst hlt
  subst hli
  unfold blockWf at hwf
  unfold blockG at hg
  simp only [Bool.and_eq_true, beq_iff_eq, Bool.not_eq_true'] at hwf hg
  obtain ⟨hg1, hg2⟩ := hg
  subst hg2
  have hc1 : trimChars bc = bc := by
    have := hwf.1.1
    simpa using this
  have hcne : bc ≠ [] := by
    intro h
    rw [h] at hg1
    cases hg1
  have hch : jsWs (bc.headD 'x') = false := by
    rw [← hc1]
    exact trimChars_headD_nonws (by rw [hc1]; exact hcne)
  have hcl : jsWs (bc.getLastD 'x') = false := by
    rw [← hc1]
    exact trimChars_getLastD_nonws (by rw [hc1]; exact hcne)
  have hlast : jsWs (('-' :: ' ' :: bc).getLastD 'x') = false := by
    rw [List.getLastD_cons, List.getLastD_cons, getLastD_indep hcne ' ' 'x']
    exact hcl
  have htr : trimChars ('-' :: ' ' :: bc) = '-' :: ' ' :: bc :=
    trimChars_eq_self (by rw [List.headD_cons]; decide) hlast
  have hf : ['`', '`', '`'].isPrefixOf (trimChars ('-' :: ' ' :: bc)) =
      false := by
    rw [htr]
    exact isPrefixOf_fence_false (by rw [List.headD_cons]; decide)
  have hbne : (trimChars ('-' :: ' ' :: bc)).isEmpty = false := by
    rw [htr]; rfl
  have hq2 : ¬ (trimChars ('-' :: ' ' :: bc)).headD 'x' = '>' := by
    rw [htr, List.headD_cons]; decide
  have hd : detectListType ('-' :: ' ' :: bc) =
      some ⟨.bullet, bc, some ['-']⟩ :=
    detectListType_bullet_line bc (by rw [headD_indep hcne 'y' 'x']; exact hch)
  show stepLine ⟨none, false, []⟩ _ n = _
  rw [stepLine_list_none hf hbne hq2 hd]
  simp [listBlockOf, initSt, hc1]

theorem step_list_numbered {b : Block} (hwf : blockWf b = true)
    (hg : blockG b = true) (hbt : b.type = .list)
    (hlt : b.listType = some .numbered) (hli : b.listIndex = some 1)
    (n : Option (List Char)) :
    stepLine initSt ('1' :: '.' :: ' ' :: b.content) n = (initSt, [b]) := by
  obtain ⟨bt, bc, blv, blt, bli⟩ := b
  simp only at hbt hlt hli ⊢
  subst hbt
  subst hlt
  subst hli
  unfold blockWf at hwf
  unfold blockG at hg
  simp only [Bool.and_eq_true, beq_iff_eq, Bool.not_eq_true'] at hwf hg
  obtain ⟨hg1, hg2⟩ := hg
  subst hg2
  have hc1 : trimChars bc = bc := by
    have := hwf.1.1
    simpa using this
  have hcne : bc ≠ [] := by
    intro h
    rw [h] at hg1
    cases hg1
  have hch : jsWs (bc.headD 'x') = false := by
    rw [← hc1]
    exact trimChars_headD_nonws (by rw [hc1]; exact hcne)
  have hcl : jsWs (bc.getLastD 'x') = false := by
    rw [← hc1]
    exact trimChars_getLastD_nonws (by rw [hc1]; exact hcne)
  have hlast : jsWs (('1' :: '.' :: ' ' :: bc).getLastD 'x') = false := by
    rw [List.getLastD_cons, List.getLastD_cons, List.getLastD_cons,
      getLastD_indep hcne ' ' 'x']
    exact hcl
  have htr : trimChars ('1' :: '.' :: ' ' :: bc) = '1' :: '.' :: ' ' :: bc :=
    trimChars_eq_self (by rw [List.headD_cons]; decide) hlast
  have hf : ['`', '`', '`'].isPrefixOf
      (trimChars ('1' :: '.' :: ' ' :: bc)) = false := by
    rw [htr]
    exact isPrefixOf_fence_false (by rw [List.headD_cons]; decide)
  have hbne : (trimChars ('1' :: '.' :: ' ' :: bc)).isEmpty = false := by
    rw [htr]; rfl
  have hq2 : ¬ (trimChars ('1' :: '.' :: ' ' :: bc)).headD 'x' = '>' := by
    rw [htr, List.headD_cons]; decide
  have hd : detectListType ('1' :: '.' :: ' ' :: bc) =
      some ⟨.numbered, bc, none⟩ :=
    detectListType_numbered_line bc
      (by rw [headD_indep hcne 'y' 'x']; exact hch)
  have hjp : jsParseInt ['1'] = some 1 := by decide
  show stepLine ⟨none, false, []⟩ _ n = _
  rw [stepLine_list_none hf hbne hq2 hd]
  simp [listBlockOf, initSt, hc1, hjp]

theorem runLines_cons (st : AsmSt) (l : List Char)
    (rest : List (List Char)) :
    runLines st (l :: rest) =
      (stepLine st l rest.head?).2 ++
        runLines (stepLine st l rest.head?).1 rest := rfl

theorem runLines_nil_none (i : Bool) (a : List Char) :
    runLines ⟨none, i, a⟩ [] = [] := rfl

theorem runLines_nil_some (b : Block) (i : Bool) (a : List Char) :
    runLines ⟨some b, i, a⟩ [] = [b] := rfl

theorem step_fence_open (n : Option (List Char)) :
    stepLine initSt ['`', '`', '`'] n = (⟨none, true, []⟩, []) := by
  show stepLine ⟨none, false, []⟩ _ n = _
  rw [stepLine_fence_open (by decide)]

theorem step_blank (n : Option (List Char)) :
    stepLine initSt [] n = (initSt, []) := by
  show stepLine ⟨none, false, []⟩ _ n = _
  rw [stepLine_blank_none (by rfl : trimChars ([] : List Char) = [])]
  rfl

theorem step_blank_flush {b : Block} (hbt : b.type ≠ .list)
    (n : Option (List Char)) :
    stepLine ⟨some b, false, []⟩ [] n = (⟨none, false, []⟩, [b]) :=
  stepLine_blank_flush rfl hbt

theorem code_inner_run (L : List (List Char))
    (hL : ∀ l ∈ L, ['`', '`', '`'].isPrefixOf (trimChars l) = false) :
    ∀ (a : List Char) (rest : List (List Char)),
      runLines ⟨none, true, a⟩ (L ++ ['`', '`', '`'] :: rest) =
        { type := .code, content := a ++ joinNlTerm L } ::
          runLines initSt rest := by
  induction L with
  | nil =>
    intro a rest
    rw [List.nil_append, runLines_cons,
      stepLine_fence_close (by decide)]
    simp [joinNlTerm, initSt]
  | cons l L2 ih =>
    intro a rest
    rw [List.cons_append, runLines_cons,
      stepLine_accum (hL l (List.mem_cons_self l L2))]
    show [] ++ runLines ⟨none, true, a ++ l ++ ['\n']⟩
        (L2 ++ ['`', '`', '`'] :: rest) = _
    rw [List.nil_append,
      ih (fun x hx => hL x (List.mem_cons_of_mem l hx)) (a ++ l ++ ['\n'])
        rest]
    simp [joinNlTerm]

theorem code_content_join {c : List Char}
    (h : (c.isEmpty || (c.getLastD 'x' == '\n')) = true) :
    joinNlTerm ((splitNl c).dropLast) = c := by
  rw [Bool.or_eq_true] at h
  rcases h with h | h
  · rw [List.isEmpty_iff] at h
    rw [h]
    rfl
  · rw [beq_iff_eq] at h
    have hne : c ≠ [] := by
      intro hnil
      rw [hnil] at h
      exact absurd h (by decide)
    obtain ⟨u, hu⟩ : ∃ u, c = u ++ ['\n'] := by
      refine ⟨c.dropLast, ?_⟩
      conv_lhs => rw [← List.dropLast_append_getLast hne]
      congr 1
      rw [List.getLastD_eq_getLast? 'x', List.getLast?_eq_getLast _ hne] at h
      simp only [Option.getD_some] at h
      rw [h]
    rw [hu, splitNl_append u []]
    have hsn : splitNl ([] : List Char) = [[]] := rfl
    rw [hsn, List.dropLast_concat]
    exact joinNlTerm_splitNl u

theorem run_code {b : Block} (hwf : blockWf b = true)
    (hg : blockG b = true) (hbt : b.type = .code)
    (rest : List (List Char)) :
    runLines initSt (coreLines b ++ rest) = b :: runLines initSt rest := by
  obtain ⟨bt, bc, blv, blt, bli⟩ := b
  simp only at hbt ⊢
  subst hbt
  unfold blockWf at hwf
  unfold blockG at hg
  simp only [Bool.and_eq_true, beq_iff_eq] at hg
  obtain ⟨⟨⟨hgAll, hg2⟩, hg3⟩, hg4⟩ := hg
  subst hg2
  subst hg3
  subst hg4
  have hL : ∀ l ∈ (splitNl bc).dropLast,
      ['`', '`', '`'].isPrefixOf (trimChars l) = false := by
    intro l hl
    have hm : l ∈ splitNl bc := (List.dropLast_sublist _).subset hl
    have := List.all_eq_true.mp hgAll l hm
    simpa using this
  show runLines initSt
    ((['`', '`', '`'] :: (splitNl bc).dropLast ++ [['`', '`', '`']]) ++ rest)
      = _
  simp only [List.cons_append, List.append_assoc, List.singleton_append]
  rw [runLines_cons, step_fence_open]
  show [] ++ runLines ⟨none, true, []⟩
    ((splitNl bc).dropLast ++ ['`', '`', '`'] :: rest) = _
  rw [List.nil_append, code_inner_run _ hL [] rest]
  rw [List.nil_append, code_content_join hwf]

theorem run_piece {b : Block} (hwf : blockWf b = true)
    (hg : blockG b = true) (rest : List (List Char)) :
    runLines initSt (pieceLines b ++ rest) = b :: runLines initSt rest := by
  cases hbt : b.type with
  | heading =>
    have hpl : pieceLines b =
        [hashes (levelOrOne b.level) ++ ' ' :: b.content, []] := by
      simp [pieceLines, coreLines, hbt]
    rw [hpl]
    simp only [List.cons_append, List.nil_append]
    rw [runLines_cons, step_heading hwf hg hbt]
    show [b] ++ runLines initSt ([] :: rest) = _
    rw [List.cons_append, List.nil_append, runLines_cons, step_blank]
    show [b] ++ ([] ++ runLines initSt rest) = _
    simp
  | paragraph =>
    have hpl : pieceLines b = [b.content, []] := by
      simp [pieceLines, coreLines, hbt]
    rw [hpl]
    simp only [List.cons_append, List.nil_append]
    rw [runLines_cons, List.head?_cons, step_paragraph hwf hg hbt
      (Or.inl rfl)]
    show [] ++ runLines ⟨some b, false, []⟩ ([] :: rest) = _
    rw [List.nil_append, runLines_cons,
      step_blank_flush (by rw [hbt]; intro h; cases h) rest.head?]
    show [b] ++ runLines ⟨none, false, []⟩ rest = _
    rfl
  | quote =>
    have hpl : pieceLines b = ['>' :: ' ' :: b.content, []] := by
      simp [pieceLines, coreLines, hbt]
    rw [hpl]
    simp only [List.cons_append, List.nil_append]
    rw [runLines_cons, step_quote hg hbt]
    show [] ++ runLines ⟨some b, false, []⟩ ([] :: rest) = _
    rw [List.nil_append, runLines_cons,
      step_blank_flush (by rw [hbt]; intro h; cases h) rest.head?]
    show [b] ++ runLines ⟨none, false, []⟩ rest = _
    rfl
  | code =>
    have hpl : pieceLines b = coreLines b ++ [[]] := by
      simp [pieceLines, hbt]
    rw [hpl, List.append_assoc, List.singleton_append,
      run_code hwf hg hbt ([] :: rest), runLines_cons, step_blank]

    show b :: ([] ++ runLines initSt rest) = _
    rw [List.nil_append]
  | list =>
    unfold blockWf at hwf
    have hwf2 := hwf
    rw [hbt] at hwf2
    simp only [Bool.and_eq_true, Bool.or_eq_true, beq_iff_eq] at hwf2
    rcases hwf2.2 with ⟨hlt, hli⟩ | ⟨hlt, hli⟩
    · have hpl : pieceLines b = ['-' :: ' ' :: b.content] := by
        simp [pieceLines, coreLines, hbt, hlt, hli]
      rw [hpl]
      simp only [List.cons_append]
      rw [runLines_cons, step_list_bullet hwf hg hbt hlt hli]
      show [b] ++ runLines initSt rest = _
      rfl
    · have hpl : pieceLines b = ['1' :: '.' :: ' ' :: b.content] := by
        simp [pieceLines, coreLines, hbt, hlt, hli]
        rfl
      rw [hpl]
      simp only [List.cons_append]
      rw [runLines_cons, step_list_numbered hwf hg hbt hlt hli]
      show [b] ++ runLines initSt rest = _
      rfl

theorem run_core {b : Block} (hwf : blockWf b = true)
    (hg : blockG b = true) :
    runLines initSt (coreLines b) = [b] := by
  cases hbt : b.type with
  | heading =>
    have hpl : coreLines b =
        [hashes (levelOrOne b.level) ++ ' ' :: b.content] := by
      simp [coreLines, hbt]
    rw [hpl, runLines_cons, step_heading hwf hg hbt]
    show [b] ++ runLines initSt [] = _
    rfl
  | paragraph =>
    have hpl : coreLines b = [b.content] := by
      simp [coreLines, hbt]
    rw [hpl, runLines_cons, List.head?_nil, step_paragraph hwf hg hbt
      (Or.inr rfl)]
    show [] ++ runLines ⟨some b, false, []⟩ [] = _
    rfl
  | quote =>
    have hpl : coreLines b = ['>' :: ' ' :: b.content] := by
      simp [coreLines, hbt]
    rw [hpl, runLines_cons, step_quote hg hbt]
    show [] ++ runLines ⟨some b, false, []⟩ [] = _
    rfl
  | code =>
    have h := run_code hwf hg hbt []
    rw [List.append_nil] at h
    rw [h]
    rfl
  | list =>
    unfold blockWf at hwf
    have hwf2 := hwf
    rw [hbt] at hwf2
    simp only [Bool.and_eq_true, Bool.or_eq_true, beq_iff_eq] at hwf2
    rcases hwf2.2 with ⟨hlt, hli⟩ | ⟨hlt, hli⟩
    · have hpl : coreLines b = ['-' :: ' ' :: b.content] := by
        simp [coreLines, hbt, hlt, hli]
      rw [hpl, runLines_cons, step_list_bullet hwf hg hbt hlt hli]
      show [b] ++ runLines initSt [] = _
      rfl
    · have hpl : coreLines b = ['1' :: '.' :: ' ' :: b.content] := by
        simp [coreLines, hbt, hlt, hli]
        rfl
      rw [hpl, runLines_cons, step_list_numbered hwf hg hbt hlt hli]
      show [b] ++ runLines initSt [] = _
      rfl

/-- The rendered piece without its trailing newline separation. -/
def pieceCore (b : Block) : List Char :=
  match b.type with
  | .heading => hashes (levelOrOne b.level) ++ ' ' :: b.content
  | .paragraph => b.content
  | .quote => '>' :: ' ' :: b.content
  | .list =>
    (match b.listType, b.listIndex with
     | some .numbered, some (n + 1) => natChars (n + 1) ++ ['.', ' ']
     | _, _ => ['-', ' ']) ++ b.content
  | .code => '`' :: '`' :: '`' :: '\n' :: (b.content ++ ['`', '`', '`'])

theorem pieceStr_core (b : Block) :
    pieceStr b = pieceCore b ++
      (match b.type with | .list => ['\n'] | _ => ['\n', '\n']) := by
  cases hbt : b.type <;>
    simp [pieceStr, pieceCore, hbt, List.append_assoc]

theorem pieceCore_list_bullet {b : Block} (hbt : b.type = .list)
    (hlt : b.listType = some .bullet) (hli : b.listIndex = none) :
    pieceCore b = '-' :: ' ' :: b.content := by
  simp only [pieceCore, hbt, hlt, hli]
  rfl

theorem pieceCore_list_numbered {b : Block} (hbt : b.type = .list)
    (hlt : b.listType = some .numbered) (hli : b.listIndex = some 1) :
    pieceCore b = '1' :: '.' :: ' ' :: b.content := by
  simp only [pieceCore, hbt, hlt, hli]
  rfl

theorem coreLines_list_bullet {b : Block} (hbt : b.type = .list)
    (hlt : b.listType = some .bullet) (hli : b.listIndex = none) :
    coreLines b = ['-' :: ' ' :: b.content] := by
  simp only [coreLines, hbt, hlt, hli]

theorem coreLines_list_numbered {b : Block} (hbt : b.type = .list)
    (hlt : b.listType = some .numbered) (hli : b.listIndex = some 1) :
    coreLines b = ['1' :: '.' :: ' ' :: b.content] := by
  simp only [coreLines, hbt, hlt, hli]
  rfl

theorem splitNl_nl_cons (R : List Char) :
    splitNl ('\n' :: R) = [] :: splitNl R := by
  have h := splitNl_append [] R
  simpa using h

theorem splitNl_pieceCore {b : Block} (hwf : blockWf b = true)
    (hg : blockG b = true) : splitNl (pieceCore b) = coreLines b := by
  cases hbt : b.type with
  | heading =>
    unfold blockWf at hwf
    rw [hbt, Bool.and_eq_true] at hwf
    obtain ⟨hc1, hcne, hcnl, _, _⟩ := contentOK_parts hwf.1
    have hnl : '\n' ∉ hashes (levelOrOne b.level) ++ ' ' :: b.content := by
      intro h
      rcases List.mem_append.mp h with h | h
      · exact absurd (List.eq_of_mem_replicate h) (by decide)
      · rcases List.mem_cons.mp h with h | h
        · exact absurd h (by decide)
        · exact hcnl h
    have hpc : pieceCore b =
        hashes (levelOrOne b.level) ++ ' ' :: b.content := by
      simp [pieceCore, hbt]
    rw [hpc, splitNl_no_nl _ hnl]
    simp [coreLines, hbt]
  | paragraph =>
    unfold blockWf at hwf
    rw [hbt] at hwf
    obtain ⟨hc1, hcne, hcnl, _, _⟩ := contentOK_parts hwf
    have hpc : pieceCore b = b.content := by
      simp [pieceCore, hbt]
    rw [hpc, splitNl_no_nl _ hcnl]
    simp [coreLines, hbt]
  | quote =>
    unfold blockG at hg
    rw [hbt] at hg
    simp only [Bool.and_eq_true] at hg
    obtain ⟨hc1, hcne, hcnl, _, _⟩ := contentOK_parts hg.1.1.1
    have hnl : '\n' ∉ ('>' :: ' ' :: b.content : List Char) := by
      intro h
      rcases List.mem_cons.mp h with h | h
      · exact absurd h (by decide)
      · rcases List.mem_cons.mp h with h | h
        · exact absurd h (by decide)
        · exact hcnl h
    have hpc : pieceCore b = '>' :: ' ' :: b.content := by
      simp [pieceCore, hbt]
    rw [hpc, splitNl_no_nl _ hnl]
    simp [coreLines, hbt]
  | list =>
    unfold blockWf at hwf
    rw [hbt] at hwf
    simp only [Bool.and_eq_true, Bool.or_eq_true, beq_iff_eq,
      Bool.not_eq_true'] at hwf
    have hcnl : '\n' ∉ b.content := not_mem_of_contains_false hwf.1.2
    rcases hwf.2 with ⟨hlt, hli⟩ | ⟨hlt, hli⟩
    · rw [pieceCore_list_bullet hbt hlt hli,
        coreLines_list_bullet hbt hlt hli]
      apply splitNl_no_nl
      intro h
      rcases List.mem_cons.mp h with h | h
      · exact absurd h (by decide)
      · rcases List.mem_cons.mp h with h | h
        · exact absurd h (by decide)
        · exact hcnl h
    · rw [pieceCore_list_numbered hbt hlt hli,
        coreLines_list_numbered hbt hlt hli]
      apply splitNl_no_nl
      intro h
      rcases List.mem_cons.mp h with h | h
      · exact absurd h (by decide)
      · rcases List.mem_cons.mp h with h | h
        · exact absurd h (by decide)
        · rcases List.mem_cons.mp h with h | h
          · exact absurd h (by decide)
          · exact hcnl h
  | code =>
    unfold blockWf at hwf
    rw [hbt] at hwf
    have hpc : pieceCore b =
        ['`', '`', '`'] ++ '\n' :: (b.content ++ ['`', '`', '`']) := by
      simp [pieceCore, hbt]
    rw [hpc, splitNl_append]
    have hf3 : splitNl (['`', '`', '`'] : List Char) =
        [['`', '`', '`']] := rfl
    rw [hf3]
    rw [Bool.or_eq_true] at hwf
    rcases hwf with h | h
    · rw [List.isEmpty_iff] at h
      rw [h]
      simp [coreLines, hbt, h, hf3]
      rfl
    · rw [beq_iff_eq] at h
      have hne : b.content ≠ [] := by
        intro hnil
        rw [hnil] at h
        exact absurd h (by decide)
      obtain ⟨u, hu⟩ : ∃ u, b.content = u ++ ['\n'] := by
        refine ⟨b.content.dropLast, ?_⟩
        conv_lhs => rw [← List.dropLast_append_getLast hne]
        congr 1
        rw [List.getLastD_eq_getLast? 'x',
          List.getLast?_eq_getLast _ hne] at h
        simp only [Option.getD_some] at h
        rw [h]
      rw [hu, List.append_assoc]
      rw [show (['\n'] ++ ['`', '`', '`'] : List Char) =
        '\n' :: ['`', '`', '`'] from rfl]
      rw [splitNl_append]
      have hsn : splitNl (u ++ ['\n']) = splitNl u ++ [[]] :=
        splitNl_append u []
      simp [coreLines, hbt, hu, hsn, hf3, List.dropLast_concat]

theorem splitNl_piece {b : Block} (hwf : blockWf b = true)
    (hg : blockG b = true) (R : List Char) :
    splitNl (pieceStr b ++ R) = pieceLines b ++ splitNl R := by
  rw [pieceStr_core]
  cases hbt : b.type with
  | list =>
    show splitNl ((pieceCore b ++ ['\n']) ++ R) = pieceLines b ++ splitNl R
    rw [List.append_assoc]
    rw [show (['\n'] ++ R : List Char) = '\n' :: R from rfl]
    rw [splitNl_append, splitNl_pieceCore hwf hg]
    simp [pieceLines, hbt]
  | heading =>
    show splitNl ((pieceCore b ++ ['\n', '\n']) ++ R) =
      pieceLines b ++ splitNl R
    rw [List.append_assoc]
    rw [show (['\n', '\n'] ++ R : List Char) = '\n' :: ('\n' :: R) from rfl]
    rw [splitNl_append, splitNl_nl_cons, splitNl_pieceCore hwf hg]
    simp [pieceLines, hbt]
  | paragraph =>
    show splitNl ((pieceCore b ++ ['\n', '\n']) ++ R) =
      pieceLines b ++ splitNl R
    rw [List.append_assoc]
    rw [show (['\n', '\n'] ++ R : List Char) = '\n' :: ('\n' :: R) from rfl]
    rw [splitNl_append, splitNl_nl_cons, splitNl_pieceCore hwf hg]
    simp [pieceLines, hbt]
  | quote =>
    show splitNl ((pieceCore b ++ ['\n', '\n']) ++ R) =
      pieceLines b ++ splitNl R
    rw [List.append_assoc]
    rw [show (['\n', '\n'] ++ R : List Char) = '\n' :: ('\n' :: R) from rfl]
    rw [splitNl_append, splitNl_nl_cons, splitNl_pieceCore hwf hg]
    simp [pieceLines, hbt]
  | code =>
    show splitNl ((pieceCore b ++ ['\n', '\n']) ++ R) =
      pieceLines b ++ splitNl R
    rw [List.append_assoc]
    rw [show (['\n', '\n'] ++ R : List Char) = '\n' :: ('\n' :: R) from rfl]
    rw [splitNl_append, splitNl_nl_cons, splitNl_pieceCore hwf hg]
    simp [pieceLines, hbt]

/-- The rendered document without its trailing newline run. -/
def renderCore : List Block → List Char
  | [] => []
  | [b] => pieceCore b
  | b :: bs => pieceStr b ++ renderCore bs

/-- The lines of the trimmed rendered document. -/
def linesOf : List Block → List (List Char)
  | [] => []
  | [b] => coreLines b
  | b :: bs => pieceLines b ++ linesOf bs

theorem pieceCore_getLastD {b : Block} (hwf : blockWf b = true)
    (hg : blockG b = true) :
    jsWs ((pieceCore b).getLastD 'x') = false := by
  cases hbt : b.type with
  | heading =>
    unfold blockWf at hwf
    rw [hbt, Bool.and_eq_true] at hwf
    obtain ⟨hc1, hcne, hcnl, hch, hcl⟩ := contentOK_parts hwf.1
    have hpc : pieceCore b =
        hashes (levelOrOne b.level) ++ ' ' :: b.content := by
      simp [pieceCore, hbt]
    rw [hpc, getLastD_append_right
      (by simp : (' ' :: b.content : List Char) ≠ []),
      List.getLastD_cons, getLastD_indep hcne ' ' 'x']
    exact hcl
  | paragraph =>
    unfold blockWf at hwf
    rw [hbt] at hwf
    obtain ⟨hc1, hcne, hcnl, hch, hcl⟩ := contentOK_parts hwf
    have hpc : pieceCore b = b.content := by simp [pieceCore, hbt]
    rw [hpc]
    exact hcl
  | quote =>
    unfold blockG at hg
    rw [hbt] at hg
    simp only [Bool.and_eq_true] at hg
    obtain ⟨hc1, hcne, hcnl, hch, hcl⟩ := contentOK_parts hg.1.1.1
    have hpc : pieceCore b = '>' :: ' ' :: b.content := by
      simp [pieceCore, hbt]
    rw [hpc, List.getLastD_cons, List.getLastD_cons,
      getLastD_indep hcne ' ' 'x']
    exact hcl
  | list =>
    unfold blockWf at hwf
    unfold blockG at hg
    rw [hbt] at hwf hg
    simp only [Bool.and_eq_true, Bool.or_eq_true, beq_iff_eq,
      Bool.not_eq_true'] at hwf hg
    have hc1 : trimChars b.content = b.content := by
      have := hwf.1.1
      simpa using this
    have hcne : b.content ≠ [] := by
      intro hnil
      rw [hnil] at hg
      rcases hg with ⟨h1, _⟩
      cases h1
    have hcl : jsWs (b.content.getLastD 'x') = false := by
      rw [← hc1]
      exact trimChars_getLastD_nonws (by rw [hc1]; exact hcne)
    rcases hwf.2 with ⟨hlt, hli⟩ | ⟨hlt, hli⟩
    · rw [pieceCore_list_bullet hbt hlt hli, List.getLastD_cons,
        List.getLastD_cons, getLastD_indep hcne ' ' 'x']
      exact hcl
    · rw [pieceCore_list_numbered hbt hlt hli, List.getLastD_cons,
        List.getLastD_cons, List.getLastD_cons,
        getLastD_indep hcne ' ' 'x']
      exact hcl
  | code =>
    have hpc : pieceCore b =
        ['`', '`', '`'] ++ '\n' :: (b.content ++ ['`', '`', '`']) := by
      simp [pieceCore, hbt]
    rw [hpc, getLastD_append_right (by simp),
      List.getLastD_cons, getLastD_append_right
        (by simp : (['`', '`', '`'] : List Char) ≠ [])]
    decide

theorem pieceCore_ne_nil {b : Block} (hwf : blockWf b = true)
    (hg : blockG b = true) : pieceCore b ≠ [] := by
  cases hbt : b.type with
  | heading =>
    have hpc : pieceCore b =
        hashes (levelOrOne b.level) ++ ' ' :: b.content := by
      simp [pieceCore, hbt]
    rw [hpc]
    intro h
    exact absurd (List.append_eq_nil.mp h).2 (by simp)
  | paragraph =>
    unfold blockWf at hwf
    rw [hbt] at hwf
    obtain ⟨_, hcne, _, _, _⟩ := contentOK_parts hwf
    have hpc : pieceCore b = b.content := by simp [pieceCore, hbt]
    rw [hpc]
    exact hcne
  | quote =>
    have hpc : pieceCore b = '>' :: ' ' :: b.content := by
      simp [pieceCore, hbt]
    rw [hpc]
    simp
  | list =>
    unfold blockWf at hwf
    rw [hbt] at hwf
    simp only [Bool.and_eq_true, Bool.or_eq_true, beq_iff_eq] at hwf
    rcases hwf.2 with ⟨hlt, hli⟩ | ⟨hlt, hli⟩
    · rw [pieceCore_list_bullet hbt hlt hli]
      simp
    · rw [pieceCore_list_numbered hbt hlt hli]
      simp
  | code =>
    have hpc : pieceCore b =
        ['`', '`', '`'] ++ '\n' :: (b.content ++ ['`', '`', '`']) := by
      simp [pieceCore, hbt]
    rw [hpc]
    simp

theorem dropTrail_renderSeq : ∀ (B : List Block), B ≠ [] →
    (∀ b ∈ B, blockWf b = true) → (∀ b ∈ B, blockG b = true) →
    dropTrailWs (renderSeq B) = renderCore B := by
  intro B
  induction B with
  | nil => intro h; exact absurd rfl h
  | cons b bs ih =>
    intro _ hwf hg
    have hwfb := hwf b (List.mem_cons_self b bs)
    have hgb := hg b (List.mem_cons_self b bs)
    cases hbs : bs with
    | nil =>
      show dropTrailWs (pieceStr b ++ renderSeq []) = renderCore [b]
      rw [show renderSeq ([] : List Block) = [] from rfl, List.append_nil,
        pieceStr_core, dropTrailWs_append]
      have hnil : dropTrailWs
          (match b.type with | .list => ['\n'] | _ => ['\n', '\n']) = [] := by
        cases b.type <;> decide
      rw [hnil, if_pos rfl,
        dropTrailWs_eq_self (pieceCore_getLastD hwfb hgb)]
      rfl
    | cons c cs =>
      subst hbs
      show dropTrailWs (pieceStr b ++ renderSeq (c :: cs)) =
        pieceStr b ++ renderCore (c :: cs)
      rw [dropTrailWs_append]
      have hih := ih (by simp)
        (fun x hx => hwf x (List.mem_cons_of_mem b hx))
        (fun x hx => hg x (List.mem_cons_of_mem b hx))
      rw [hih]
      have hne : renderCore (c :: cs) ≠ [] := by
        cases cs with
        | nil =>
          exact pieceCore_ne_nil (hwf c (by simp)) (hg c (by simp))
        | cons d ds =>
          show pieceStr c ++ renderCore (d :: ds) ≠ []
          intro hx
          exact pieceStr_ne_nil c (List.append_eq_nil.mp hx).1
      rw [if_neg hne]

theorem splitNl_renderCore : ∀ (B : List Block), B ≠ [] →
    (∀ b ∈ B, blockWf b = true) → (∀ b ∈ B, blockG b = true) →
    splitNl (renderCore B) = linesOf B := by
  intro B
  induction B with
  | nil => intro h; exact absurd rfl h
  | cons b bs ih =>
    intro _ hwf hg
    have hwfb := hwf b (List.mem_cons_self b bs)
    have hgb := hg b (List.mem_cons_self b bs)
    cases hbs : bs with
    | nil => exact splitNl_pieceCore hwfb hgb
    | cons c cs =>
      subst hbs
      show splitNl (pieceStr b ++ renderCore (c :: cs)) =
        pieceLines b ++ linesOf (c :: cs)
      rw [splitNl_piece hwfb hgb,
        ih (by simp) (fun x hx => hwf x (List.mem_cons_of_mem b hx))
          (fun x hx => hg x (List.mem_cons_of_mem b hx))]

theorem runLines_linesOf : ∀ (B : List Block), B ≠ [] →
    (∀ b ∈ B, blockWf b = true) → (∀ b ∈ B, blockG b = true) →
    runLines initSt (linesOf B) = B := by
  intro B
  induction B with
  | nil => intro h; exact absurd rfl h
  | cons b bs ih =>
    intro _ hwf hg
    have hwfb := hwf b (List.mem_cons_self b bs)
    have hgb := hg b (List.mem_cons_self b bs)
    cases hbs : bs with
    | nil => exact run_core hwfb hgb
    | cons c cs =>
      subst hbs
      show runLines initSt (pieceLines b ++ linesOf (c :: cs)) = _
      rw [run_piece hwfb hgb,
        ih (by simp) (fun x hx => hwf x (List.mem_cons_of_mem b hx))
          (fun x hx => hg x (List.mem_cons_of_mem b hx))]

theorem reparse_blocks (B : List Block) (hB : B ≠ [])
    (hwf : ∀ b ∈ B, blockWf b = true) (hg : ∀ b ∈ B, blockG b = true) :
    analyzeTextStructure (blocksToMarkdown B) = B := by
  have h1 : blocksToMarkdown B = trimChars (renderSeq B) := by
    unfold blocksToMarkdown
    rw [bmGo_flat B none false (fun b hb hl => blockWf_list_lt (hwf b hb) hl)]
  have h2 : trimChars (renderSeq B) = renderCore B := by
    unfold trimChars
    rw [dropWhile_self_of_headD (renderSeq_headD hwf hB)]
    exact dropTrail_renderSeq B hB hwf hg
  unfold analyzeTextStructure
  rw [h1, h2, splitNl_renderCore B hB hwf hg, runLines_linesOf B hB hwf hg]

/-- C4 (corrected): the original claim — render∘analyze is idempotent on
any text whose code blocks contain no triple backticks — is refuted by
`C4_idempotence_counterexample` (two consecutive quote lines).  The
amended claim proved here: whenever every block produced by the analyzer
is well-formed (`blockWf`) and good for reparsing (`blockG`: canonical
unset metadata fields and content that re-triggers exactly the
classifier rule that produced the block — in particular single-line
quotes), `transform (transform text) = transform text`. -/
theorem C4_good_blocks_idempotent {text : List Char}
    (hgw : ∀ b ∈ analyzeTextStructure text,
      blockWf b = true ∧ blockG b = true) :
    transform (transform text) = transform text := by
  by_cases hB : analyzeTextStructure text = []
  · unfold transform
    rw [hB]
    rfl
  · unfold transform
    rw [reparse_blocks _ hB (fun b hb => (hgw b hb).1)
      (fun b hb => (hgw b hb).2)]

/-- Witness for C4: a concrete five-block document (heading, paragraph,
bullet item, numbered item, code block, quote) satisfies the hypothesis,
and its transform is a fixed point of transform. -/
theorem C4_good_blocks_idempotent_witness :
    (∀ b ∈ analyzeTextStructure
        ("# A\nhello there\n\n- x\n1. y\n```\ncode\n```\n> q".data),
      blockWf b = true ∧ blockG b = true) ∧
    transform (transform
        ("# A\nhello there\n\n- x\n1. y\n```\ncode\n```\n> q".data)) =
      transform ("# A\nhello there\n\n- x\n1. y\n```\ncode\n```\n> q".data) :=
  ⟨by decide, C4_good_blocks_idempotent (by decide)⟩

end Markify
